import Mathlib

/-!
Verification of the trie-backed Aho-Corasick automaton in
src/licensedcode/pyahocorasick.py.

The Python structure is a graph of mutable TrieNode objects reachable from a
root.  We embed it as an arena: a list of nodes addressed by index, with the
root at index 0.  Child dictionaries become association lists, the NIL
sentinel becomes Option.none, and the potentially non-terminating loops of
make_automaton, search and len become fuel-indexed functions returning
Option (none = the loop did not finish within the given fuel, or the Python
code dereferenced NIL and crashed).
-/

namespace Aho

/-- Arena node mirroring TrieNode: keyitem, value, fail (an arena index or
NIL) and the children dictionary mapping an item to an arena index. -/
structure TrieNode (α β : Type) where
  keyitem : Option α
  value : Option β
  fail : Option Nat
  children : List (α × Nat)
deriving DecidableEq

/-- The Trie object: the arena of nodes (root at index 0) together with the
items_range and content fields set by the constructor. -/
structure Trie (α β : Type) where
  nodes : List (TrieNode α β)
  items_range : Nat
  content : Nat → α

variable {α β : Type} [DecidableEq α]

/-- Dereference an arena index. -/
def nodeAt (t : Trie α β) (i : Nat) : Option (TrieNode α β) :=
  t.nodes.get? i

/-- The children dictionary of the node at index i (empty for a dangling index). -/
def childrenOf (t : Trie α β) (i : Nat) : List (α × Nat) :=
  (nodeAt t i).elim [] TrieNode.children

/-- The value slot of the node at index i. -/
def valueAt (t : Trie α β) (i : Nat) : Option β :=
  (nodeAt t i).bind TrieNode.value

/-- The fail slot of the node at index i. -/
def failAt (t : Trie α β) (i : Nat) : Option Nat :=
  (nodeAt t i).bind TrieNode.fail

/-- The keyitem slot of the node at index i. -/
def keyAt (t : Trie α β) (i : Nat) : Option α :=
  (nodeAt t i).bind TrieNode.keyitem

/-- Dictionary lookup children[k] (first matching key). -/
def lookupChild (cs : List (α × Nat)) (k : α) : Option Nat :=
  match cs with
  | [] => none
  | (a, b) :: rest => if a = k then some b else lookupChild rest k

/-- Dictionary update children[k] = j: replace the binding of k if present,
otherwise append a new binding. -/
def setChild (cs : List (α × Nat)) (k : α) (j : Nat) : List (α × Nat) :=
  match cs with
  | [] => [(k, j)]
  | (a, b) :: rest => if a = k then (k, j) :: rest else (a, b) :: setChild rest k j

/-- In-place mutation of the node at index i (identity on a dangling index). -/
def updateNode (t : Trie α β) (i : Nat) (f : TrieNode α β → TrieNode α β) : Trie α β :=
  match t.nodes.get? i with
  | none => t
  | some n => { t with nodes := t.nodes.set i (f n) }

/-- Trie.__init__: a single root node with no keyitem, no value, no fail. -/
def emptyTrie (β : Type) (r : Nat) (c : Nat → α) : Trie α β :=
  { nodes := [⟨none, none, none, []⟩], items_range := r, content := c }

/-- Trie.__get_node walking from the node at index i: follow the children
dictionaries; None as soon as a key is absent. -/
def getNodeFrom (t : Trie α β) : Nat → List α → Option Nat
  | i, [] => some i
  | i, k :: rest =>
    match nodeAt t i with
    | none => none
    | some n =>
      match lookupChild n.children k with
      | none => none
      | some j => getNodeFrom t j rest

/-- Trie.__get_node from the root. -/
def getNode (t : Trie α β) (seq : List α) : Option Nat :=
  getNodeFrom t 0 seq

/-- The value Trie.get computes before the NIL test: node.value when a node
was reached (NIL otherwise). -/
def storedValue (t : Trie α β) (seq : List α) : Option β :=
  (getNode t seq).bind (valueAt t)

/-- Trie.get: return the stored value, else the default when provided, else
raise KeyError (modelled as Except.error). -/
def get (t : Trie α β) (seq : List α) (dflt : Option β) : Except Unit β :=
  match storedValue t seq, dflt with
  | none, none => Except.error ()
  | none, some dv => Except.ok dv
  | some v, _ => Except.ok v

/-- Trie.exists: a node is reached and holds a value. -/
def trieExists (t : Trie α β) (seq : List α) : Bool :=
  match getNode t seq with
  | some i => (valueAt t i).isSome
  | none => false

/-- Trie.match: some node is reached by the sequence. -/
def matchSeq (t : Trie α β) (seq : List α) : Bool :=
  (getNode t seq).isSome

/-- The walk of Trie.add from the node at index i: reuse an existing child,
otherwise append a fresh node to the arena and link it; returns the updated
trie and the index of the terminal node of the walk. -/
def addFrom (t : Trie α β) (i : Nat) : List α → Trie α β × Nat
  | [] => (t, i)
  | k :: rest =>
    match nodeAt t i with
    | none => (t, i)
    | some n =>
      match lookupChild n.children k with
      | some j => addFrom t j rest
      | none =>
        let m := t.nodes.length
        let t1 : Trie α β := { t with nodes := t.nodes ++ [⟨some k, none, none, []⟩] }
        let t2 := updateNode t1 i (fun nd => { nd with children := setChild nd.children k m })
        addFrom t2 m rest

/-- Trie.add: no-op on the empty sequence, otherwise walk or create the path
and assign the value to the terminal node. -/
def add (t : Trie α β) (seq : List α) (v : β) : Trie α β :=
  match seq with
  | [] => t
  | _ :: _ =>
    let p := addFrom t 0 seq
    updateNode p.1 p.2 (fun nd => { nd with value := some v })

/-- A list of add operations performed in order. -/
def addAll (t : Trie α β) (ps : List (List α × β)) : Trie α β :=
  ps.foldl (fun acc p => add acc p.1 p.2) t

/-- The explicit-stack loop of Trie.__len__: pop a node, count it when it
holds a value, push its children.  Fuel-indexed; none when the fuel runs out
before the stack empties. -/
def lenLoop (t : Trie α β) : Nat → List Nat → Nat → Option Nat
  | _, [], acc => some acc
  | 0, _ :: _, _ => none
  | fuel + 1, i :: stack, acc =>
    match nodeAt t i with
    | none => none
    | some n =>
      lenLoop t fuel ((n.children.map Prod.snd) ++ stack)
        (if n.value.isSome then acc + 1 else acc)

/-- Trie.__len__ with the given fuel. -/
def trieLen (t : Trie α β) (fuel : Nat) : Option Nat :=
  lenLoop t fuel [0] 0

/-- Membership test keyitem in state.children; the keyitem None of the root
is never a dictionary key. -/
def childFor (n : TrieNode α β) (key : Option α) : Option Nat :=
  match key with
  | none => none
  | some k => lookupChild n.children k

/-- The loop while keyitem not in state.children: state = state.fail.  Returns
the index where the loop exits; none when the fuel runs out or a NIL fail is
dereferenced (the AttributeError case of the Python code). -/
def failWalk (t : Trie α β) (key : Option α) : Nat → Nat → Option Nat
  | 0, _ => none
  | fuel + 1, s =>
    match nodeAt t s with
    | none => none
    | some st =>
      match childFor st key with
      | some _ => some s
      | none =>
        match st.fail with
        | none => none
        | some s2 => failWalk t key fuel s2

/-- The inner for loop of make_automaton step 2 over the children of the
current node c: enqueue each child and assign its fail link through the fail
chain walk. -/
def processChildren (t : Trie α β) (c : Nat) :
    List (α × Nat) → List Nat → Nat → Option (Trie α β × List Nat)
  | [], queue, _ => some (t, queue)
  | (_, j) :: rest, queue, fuel =>
    match nodeAt t c with
    | none => none
    | some current =>
      match current.fail with
      | none => none
      | some s0 =>
        match nodeAt t j with
        | none => none
        | some node =>
          match failWalk t node.keyitem fuel s0 with
          | none => none
          | some s =>
            match nodeAt t s with
            | none => none
            | some st =>
              processChildren
                (updateNode t j (fun nd =>
                  { nd with fail := some ((childFor st node.keyitem).getD 0) }))
                c rest (queue ++ [j]) fuel

/-- The while queue loop of make_automaton step 2 (breadth-first propagation),
fuel-indexed. -/
def bfsLoop : Trie α β → Nat → List Nat → Option (Trie α β)
  | t, _, [] => some t
  | _, 0, _ :: _ => none
  | t, fuel + 1, c :: queue =>
    match nodeAt t c with
    | none => none
    | some current =>
      match processChildren t c current.children queue fuel with
      | none => none
      | some p => bfsLoop p.1 fuel p.2

/-- One iteration of step 1 of make_automaton on the accumulated
(trie, queue) pair: either set the fail link of the existing root child for
content(i) to the root and enqueue it, or install the synthetic
self-transition root.children[item] = root. -/
def step1F : Trie α β × List Nat → Nat → Trie α β × List Nat := fun acc i =>
  let item := acc.1.content i
  match lookupChild (childrenOf acc.1 0) item with
  | some j => (updateNode acc.1 j (fun nd => { nd with fail := some 0 }), acc.2 ++ [j])
  | none =>
    (updateNode acc.1 0 (fun nd => { nd with children := setChild nd.children item 0 }),
      acc.2)

/-- Step 1 of make_automaton: the loop for i in range(items_range). -/
def step1 (t : Trie α β) : Trie α β × List Nat :=
  (List.range t.items_range).foldl step1F (t, [])

/-- The state of the step 1 loop relative to the inital trie t: only fail
links of root children and the root children dictionary change; fail links
assigned so far all point to the root, and the queue holds exactly the
nodes whose fail was assigned, each of them a root transition target. -/
structure Step1Inv (t tc : Trie α β) (qc : List Nat) : Prop where
  len_eq : tc.nodes.length = t.nodes.length
  range_eq : tc.items_range = t.items_range
  content_eq : tc.content = t.content
  key_eq : ∀ x, keyAt tc x = keyAt t x
  value_eq : ∀ x, valueAt tc x = valueAt t x
  pres_eq : ∀ x, (nodeAt tc x).isSome = (nodeAt t x).isSome
  ch_eq : ∀ x, x ≠ 0 → childrenOf tc x = childrenOf t x
  root_sup : ∀ e ∈ childrenOf t 0, e ∈ childrenOf tc 0
  root_sub : ∀ e ∈ childrenOf tc 0, e ∈ childrenOf t 0 ∨ e.2 = 0
  root_lookup : ∀ a b, lookupChild (childrenOf t 0) a = some b →
    lookupChild (childrenOf tc 0) a = some b
  fail_zero : ∀ j f, failAt tc j = some f → f = 0
  set_queued : ∀ j, (failAt tc j).isSome → j ∈ qc
  queued : ∀ j ∈ qc, (failAt tc j).isSome ∧ ∃ e ∈ childrenOf tc 0, e.2 = j

/-- Trie.make_automaton: step 1 then the breadth-first step 2. -/
def make_automaton (t : Trie α β) (fuel : Nat) : Option (Trie α β) :=
  let p := step1 t
  bfsLoop p.1 fuel p.2

/-- The loop while tmp is not NIL of Trie.search: collect the values along a
fail chain, node first (longest matched suffix first). -/
def collectValues (t : Trie α β) : Nat → Option Nat → Option (List β)
  | _, none => some []
  | 0, some _ => none
  | fuel + 1, some i =>
    match nodeAt t i with
    | none => none
    | some n =>
      match collectValues t fuel n.fail with
      | none => none
      | some vs =>
        some (match n.value with
          | some v => v :: vs
          | none => vs)

/-- One position of Trie.search: fail chain walk to a state having a child
for the item, transition to that child (root on the dictionary default), and
collect the values along the fail chain of the new state. -/
def searchStep (t : Trie α β) (fuel : Nat) (state : Nat) (k : α) : Option (Nat × List β) :=
  match failWalk t (some k) fuel state with
  | none => none
  | some s =>
    match nodeAt t s with
    | none => none
    | some st =>
      let st2 := (lookupChild st.children k).getD 0
      match collectValues t fuel (some st2) with
      | none => none
      | some vs => some (st2, vs)

/-- The enumerate loop of Trie.search, yielding (index, values) for every
position whose collected value list is non-empty. -/
def searchLoop (t : Trie α β) (fuel : Nat) : Nat → List α → Nat → Option (List (Nat × List β))
  | _, [], _ => some []
  | state, k :: rest, index =>
    match searchStep t fuel state k with
    | none => none
    | some p =>
      match searchLoop t fuel p.1 rest (index + 1) with
      | none => none
      | some out => some (if p.2.isEmpty then out else (index, p.2) :: out)

/-- Trie.search on a whole input sequence, from the root, indices from 0. -/
def search (t : Trie α β) (fuel : Nat) (seq : List α) : Option (List (Nat × List β)) :=
  searchLoop t fuel 0 seq 0

/-- Well-formedness of a trie before compilation: non-empty arena, children
edges go strictly forward and stay in range, every non-root node has a unique
parent edge, every non-root node has a parent, all fail slots are NIL, and
the root carries no keyitem and no value. -/
def WfTrie (t : Trie α β) : Prop :=
  0 < t.nodes.length ∧
  (∀ i ∈ List.range t.nodes.length, ∀ e ∈ childrenOf t i, i < e.2 ∧ e.2 < t.nodes.length) ∧
  (∀ i1 ∈ List.range t.nodes.length, ∀ i2 ∈ List.range t.nodes.length,
    ∀ e1 ∈ childrenOf t i1, ∀ e2 ∈ childrenOf t i2, e1.2 = e2.2 → i1 = i2 ∧ e1.1 = e2.1) ∧
  (∀ j ∈ List.range t.nodes.length, j ≠ 0 →
    ∃ i ∈ List.range t.nodes.length, ∃ e ∈ childrenOf t i, e.2 = j) ∧
  (∀ j ∈ List.range t.nodes.length, failAt t j = none) ∧
  keyAt t 0 = none ∧
  valueAt t 0 = none ∧
  (∀ i ∈ List.range t.nodes.length,
    (childrenOf t i).Pairwise (fun e1 e2 => e1.1 ≠ e2.1))

/-- A depth assignment for the trie: 0 at the root, parent depth plus one
along every real child edge, and bounded by the arena index. -/
def Depths (t : Trie α β) (d : Nat → Nat) : Prop :=
  d 0 = 0 ∧
  (∀ j ∈ List.range t.nodes.length, d j ≤ j) ∧
  (∀ i ∈ List.range t.nodes.length, ∀ e ∈ childrenOf t i, e.2 ≠ 0 → d e.2 = d i + 1)

/-- The item universe declared to make_automaton covers the item k. -/
def Covered (t : Trie α β) (k : α) : Prop :=
  ∃ i ∈ List.range t.items_range, t.content i = k

/-- Every inserted item (the keyitem of every non-root node) lies in the
declared item universe: the standing precondition of compile in the spec. -/
def KeysCovered (t : Trie α β) : Prop :=
  ∀ j ∈ List.range t.nodes.length, j ≠ 0 →
    ∃ i ∈ List.range t.items_range, keyAt t j = some (t.content i)

/-- Edge shape during and after compilation: targets stay in range, edges
out of non-root nodes go strictly forward, and edges into the root occur
only at the root (the synthetic self-transitions). -/
def CBA (t : Trie α β) : Prop :=
  ∀ m e, e ∈ childrenOf t m → e.2 < t.nodes.length ∧ (m = 0 ∨ m < e.2) ∧ (e.2 = 0 → m = 0)

/-- Every root transition on a universe item leads to the root itself or to
a node whose fail link is already set. -/
def RootCoveredSet (t : Trie α β) : Prop :=
  ∀ i, i < t.items_range → ∀ f, lookupChild (childrenOf t 0) (t.content i) = some f →
    f = 0 ∨ (failAt t f).isSome

/-- A state the search can safely occupy: the root, or a node with its fail
link set. -/
def Good (t : Trie α β) (j : Nat) : Prop :=
  j = 0 ∨ (failAt t j).isSome

/-- One child edge step in the trie graph. -/
def childStep (t : Trie α β) (x y : Nat) : Prop :=
  ∃ k, (k, y) ∈ childrenOf t x

/-- What the breadth-first phase leaves untouched: everything except fail
links. -/
def StaticEq (t ta : Trie α β) : Prop :=
  ta.nodes.length = t.nodes.length ∧ ta.items_range = t.items_range ∧
  ta.content = t.content ∧
  (∀ x, childrenOf ta x = childrenOf t x) ∧ (∀ x, keyAt ta x = keyAt t x) ∧
  (∀ x, valueAt ta x = valueAt t x) ∧ (∀ x, (nodeAt ta x).isSome = (nodeAt t x).isSome)

/-- Core invariant of the breadth-first loop, relative to the queue Q: the
root fail is unset unless a degenerate self-enqueue happened, every set fail
link decreases depth, fail links stay in range, and queued nodes have their
fail set. -/
def AutoCore (t : Trie α β) (d : Nat → Nat) (Q : List Nat) : Prop :=
  (∀ f, failAt t 0 = some f → f = 0 ∧ 0 ∈ Q ∧ ∃ kk, (kk, (0 : Nat)) ∈ childrenOf t 0) ∧
  (∀ j f, j ≠ 0 → failAt t j = some f → d f < d j) ∧
  (∀ j f, failAt t j = some f → f < t.nodes.length) ∧
  (∀ c ∈ Q, (failAt t c).isSome)

/-- Extended invariant (available under the universe precondition): children
of processed nodes are set, fail targets are good or below a queued subtree,
and covered root transitions lead to set nodes. -/
def AutoExt (t : Trie α β) (Q : List Nat) : Prop :=
  (∀ j, (failAt t j).isSome →
    (∀ e ∈ childrenOf t j, (failAt t e.2).isSome) ∨ j ∈ Q) ∧
  (∀ j f, failAt t j = some f → f = 0 ∨ (failAt t f).isSome ∨
    ∃ c ∈ Q, Relation.ReflTransGen (childStep t) c f) ∧
  RootCoveredSet t

instance decKeysCovered (t : Trie α β) : Decidable (KeysCovered t) := by
  unfold KeysCovered
  infer_instance

instance decWfTrie [DecidableEq β] (t : Trie α β) : Decidable (WfTrie t) := by
  unfold WfTrie
  infer_instance

instance decDepths (t : Trie α β) (d : Nat → Nat) : Decidable (Depths t d) := by
  unfold Depths
  infer_instance

instance decCovered (t : Trie α β) (k : α) : Decidable (Covered t k) := by
  unfold Covered
  infer_instance

/-- Every child edge label equals the keyitem stored at the target node, as
add maintains: node.children[keyitem] = TrieNode(keyitem). -/
def KeyLabels (t : Trie α β) : Prop :=
  ∀ i ∈ List.range t.nodes.length, ∀ e ∈ childrenOf t i, keyAt t e.2 = some e.1

instance decKeyLabels (t : Trie α β) : Decidable (KeyLabels t) := by
  unfold KeyLabels
  infer_instance

/-- Children edges go strictly forward in the arena and stay in range
(the unbounded form of the corresponding WfTrie clause). -/
def ChildrenCB (t : Trie α β) : Prop :=
  ∀ m e, e ∈ childrenOf t m → m < e.2 ∧ e.2 < t.nodes.length

/-- How a trie ta extends a trie t after a sequence of node creations by
add: old node slots keep their keyitem, fail and value, fresh nodes carry no
value and no fail, old edges persist, new edges target only fresh nodes,
each fresh node has exactly one incoming edge, and child lookups are
unchanged except for keys newly bound to fresh nodes. -/
structure AddExtends (t ta : Trie α β) : Prop where
  len_le : t.nodes.length ≤ ta.nodes.length
  range_eq : ta.items_range = t.items_range
  content_eq : ta.content = t.content
  key_pres : ∀ m, m < t.nodes.length → keyAt ta m = keyAt t m
  fail_pres : ∀ m, m < t.nodes.length → failAt ta m = failAt t m
  value_pres : ∀ m, m < t.nodes.length → valueAt ta m = valueAt t m
  value_fresh : ∀ m, t.nodes.length ≤ m → valueAt ta m = none
  fail_fresh : ∀ m, t.nodes.length ≤ m → failAt ta m = none
  edges_pres : ∀ m e, e ∈ childrenOf t m → e ∈ childrenOf ta m
  edges_sub : ∀ m e, e ∈ childrenOf ta m → e ∈ childrenOf t m ∨ t.nodes.length ≤ e.2
  fresh_unique : ∀ m1 m2 e1 e2, e1 ∈ childrenOf ta m1 → e2 ∈ childrenOf ta m2 →
    t.nodes.length ≤ e1.2 → e1.2 = e2.2 → m1 = m2 ∧ e1 = e2
  fresh_parent : ∀ m, t.nodes.length ≤ m → m < ta.nodes.length →
    ∃ m2 e, e ∈ childrenOf ta m2 ∧ e.2 = m
  lookup_acc : ∀ m a, lookupChild (childrenOf ta m) a = lookupChild (childrenOf t m) a ∨
    (lookupChild (childrenOf t m) a = none ∧
      ∃ b, lookupChild (childrenOf ta m) a = some b ∧ t.nodes.length ≤ b)
  nodup_keys : ∀ m, (childrenOf t m).Pairwise (fun e1 e2 => e1.1 ≠ e2.1) →
    (childrenOf ta m).Pairwise (fun e1 e2 => e1.1 ≠ e2.1)

/-- Concrete items for the worked example: 0=u, 1=s, 2=h, 3=e, 4=r. -/
def contC : Nat → Nat := fun i => i

/-- The example trie: he -> 10, she -> 11, hers -> 12 over the five item
universe of ushers. -/
def tC2 : Trie Nat Nat :=
  add (add (add (emptyTrie Nat 5 contC) [2, 3] 10) [1, 2, 3] 11) [2, 3, 4, 1] 12

/-- The example trie after make_automaton. -/
def tC2auto : Trie Nat Nat :=
  (make_automaton tC2 50).getD tC2

/-- A depth assignment for the example trie. -/
def dC2 : Nat → Nat := fun j => [0, 1, 2, 1, 2, 3, 3, 4].getD j 0

/-- The input sequence ushers. -/
def ushersSeq : List Nat := [0, 1, 2, 3, 4, 1]

/-- The failing input of the size claim: an empty trie with a one item
universe. -/
def tC5 : Trie Nat Nat := emptyTrie Nat 1 (fun _ => 0)

/-- The empty trie after make_automaton: the root has gained the synthetic
self-transition. -/
def tC5auto : Trie Nat Nat :=
  (make_automaton tC5 5).getD tC5

/-- A node dereference succeeds exactly on in-range indices. -/
theorem nodeAt_isSome_iff {t : Trie α β} {i : Nat} :
    (nodeAt t i).isSome ↔ i < t.nodes.length := by
  unfold nodeAt
  cases h : t.nodes.get? i with
  | none => simpa [List.get?_eq_none] using h
  | some n =>
    simp only [Option.isSome_some, true_iff]
    rcases List.get?_eq_some.mp h with ⟨hlt, _⟩
    exact hlt

/-- A successful node dereference gives an in-range index. -/
theorem lt_of_nodeAt_some {t : Trie α β} {i : Nat} {n : TrieNode α β}
    (h : nodeAt t i = some n) : i < t.nodes.length :=
  nodeAt_isSome_iff.mp (by simp [h])

/-- Out of range dereferences fail. -/
theorem nodeAt_none_of_le {t : Trie α β} {i : Nat} (h : t.nodes.length ≤ i) :
    nodeAt t i = none := by
  unfold nodeAt
  exact List.get?_len_le h

/-- In range dereferences succeed. -/
theorem nodeAt_some_of_lt {t : Trie α β} {i : Nat} (h : i < t.nodes.length) :
    ∃ n, nodeAt t i = some n := by
  have h2 : (nodeAt t i).isSome := nodeAt_isSome_iff.mpr h
  exact Option.isSome_iff_exists.mp h2

/-- Mutating node i rewrites slot i and leaves every other slot alone. -/
theorem nodeAt_updateNode (t : Trie α β) (i : Nat) (f : TrieNode α β → TrieNode α β)
    (j : Nat) :
    nodeAt (updateNode t i f) j = if i = j then (nodeAt t i).map f else nodeAt t j := by
  unfold updateNode nodeAt
  cases h : t.nodes.get? i with
  | none =>
    by_cases hij : i = j
    · subst hij
      rw [h, if_pos rfl]
      rfl
    · rw [if_neg hij]
  | some n =>
    simp only
    rw [List.get?_set]
    by_cases hij : i = j
    · subst hij
      rw [if_pos rfl, if_pos rfl, h]
      rfl
    · rw [if_neg hij, if_neg hij]

/-- Mutation preserves the arena length. -/
theorem length_updateNode (t : Trie α β) (i : Nat) (f : TrieNode α β → TrieNode α β) :
    (updateNode t i f).nodes.length = t.nodes.length := by
  unfold updateNode
  cases t.nodes.get? i <;> simp

/-- Mutation preserves items_range. -/
theorem itemsRange_updateNode (t : Trie α β) (i : Nat) (f : TrieNode α β → TrieNode α β) :
    (updateNode t i f).items_range = t.items_range := by
  unfold updateNode
  cases t.nodes.get? i <;> simp

/-- Mutation preserves content. -/
theorem content_updateNode (t : Trie α β) (i : Nat) (f : TrieNode α β → TrieNode α β) :
    (updateNode t i f).content = t.content := by
  unfold updateNode
  cases t.nodes.get? i <;> simp

/-- A successful dictionary lookup comes from an entry of the list. -/
theorem lookupChild_mem {cs : List (α × Nat)} {a : α} {b : Nat}
    (h : lookupChild cs a = some b) : (a, b) ∈ cs := by
  induction cs with
  | nil => simp [lookupChild] at h
  | cons e rest ih =>
    obtain ⟨x, y⟩ := e
    by_cases hx : x = a
    · subst hx
      simp [lookupChild] at h
      simp [h]
    · simp only [lookupChild, if_neg hx] at h
      exact List.mem_cons_of_mem _ (ih h)

/-- Lookup over a concatenation tries the left part first. -/
theorem lookupChild_append (cs ds : List (α × Nat)) (a : α) :
    lookupChild (cs ++ ds) a =
      match lookupChild cs a with
      | some b => some b
      | none => lookupChild ds a := by
  induction cs with
  | nil => simp [lookupChild]
  | cons e rest ih =>
    obtain ⟨x, y⟩ := e
    by_cases hx : x = a
    · subst hx; simp [lookupChild]
    · simp only [List.cons_append, lookupChild, if_neg hx]
      exact ih

/-- Updating an absent key appends the new binding. -/
theorem setChild_of_lookup_none {cs : List (α × Nat)} {k : α} (j : Nat)
    (h : lookupChild cs k = none) : setChild cs k j = cs ++ [(k, j)] := by
  induction cs with
  | nil => rfl
  | cons e rest ih =>
    obtain ⟨x, y⟩ := e
    by_cases hx : x = k
    · subst hx; simp [lookupChild] at h
    · simp only [lookupChild, if_neg hx] at h
      simp [setChild, if_neg hx, ih h]

/-- AddExtends is reflexive on tries with forward edges. -/
theorem AddExtends.of_cb {t : Trie α β} (hcb : ChildrenCB t) : AddExtends t t := by
  refine ⟨le_rfl, rfl, rfl, fun m _ => rfl, fun m _ => rfl, fun m _ => rfl, ?_, ?_,
    fun m e h => h, fun m e h => Or.inl h, ?_, ?_, fun m a => Or.inl rfl, fun m h => h⟩
  · intro m hm
    unfold valueAt
    rw [nodeAt_none_of_le hm]
    rfl
  · intro m hm
    unfold failAt
    rw [nodeAt_none_of_le hm]
    rfl
  · intro m1 m2 e1 e2 h1 _ hfr _
    exact absurd (hcb m1 e1 h1).2 (not_lt.mpr hfr)
  · intro m hm hm2
    exact absurd hm2 (not_lt.mpr hm)

/-- AddExtends composes. -/
theorem AddExtends.trans {t1 t2 t3 : Trie α β}
    (h12 : AddExtends t1 t2) (h23 : AddExtends t2 t3) : AddExtends t1 t3 := by
  refine ⟨h12.len_le.trans h23.len_le, h23.range_eq.trans h12.range_eq,
    h23.content_eq.trans h12.content_eq, ?_, ?_, ?_, ?_, ?_, ?_, ?_, ?_, ?_, ?_,
    fun m h => h23.nodup_keys m (h12.nodup_keys m h)⟩
  · intro m hm
    rw [h23.key_pres m (lt_of_lt_of_le hm h12.len_le), h12.key_pres m hm]
  · intro m hm
    rw [h23.fail_pres m (lt_of_lt_of_le hm h12.len_le), h12.fail_pres m hm]
  · intro m hm
    rw [h23.value_pres m (lt_of_lt_of_le hm h12.len_le), h12.value_pres m hm]
  · intro m hm
    by_cases h2 : m < t2.nodes.length
    · rw [h23.value_pres m h2]
      exact h12.value_fresh m hm
    · exact h23.value_fresh m (not_lt.mp h2)
  · intro m hm
    by_cases h2 : m < t2.nodes.length
    · rw [h23.fail_pres m h2]
      exact h12.fail_fresh m hm
    · exact h23.fail_fresh m (not_lt.mp h2)
  · intro m e h
    exact h23.edges_pres m e (h12.edges_pres m e h)
  · intro m e h
    rcases h23.edges_sub m e h with h2 | h2
    · rcases h12.edges_sub m e h2 with h1 | h1
      · exact Or.inl h1
      · exact Or.inr h1
    · exact Or.inr (le_trans h12.len_le h2)
  · intro m1 m2 e1 e2 h1 h2 hfr heq
    by_cases hf2 : t2.nodes.length ≤ e1.2
    · exact h23.fresh_unique m1 m2 e1 e2 h1 h2 hf2 heq
    · have hb1 : e1 ∈ childrenOf t2 m1 := by
        rcases h23.edges_sub m1 e1 h1 with h | h
        · exact h
        · exact absurd h hf2
      have hb2 : e2 ∈ childrenOf t2 m2 := by
        rcases h23.edges_sub m2 e2 h2 with h | h
        · exact h
        · rw [← heq] at h; exact absurd h hf2
      exact h12.fresh_unique m1 m2 e1 e2 hb1 hb2 hfr heq
  · intro m hm hlt
    by_cases h2 : m < t2.nodes.length
    · rcases h12.fresh_parent m hm h2 with ⟨m2, e, he, het⟩
      exact ⟨m2, e, h23.edges_pres m2 e he, het⟩
    · exact h23.fresh_parent m (not_lt.mp h2) hlt
  · intro m a
    rcases h23.lookup_acc m a with h3 | ⟨h3n, b, h3b, h3le⟩
    · rcases h12.lookup_acc m a with h1 | ⟨h1n, b, h1b, h1le⟩
      · exact Or.inl (h3.trans h1)
      · exact Or.inr ⟨h1n, b, h3.trans h1b, h1le⟩
    · refine Or.inr ⟨?_, b, h3b, le_trans h12.len_le h3le⟩
      rcases h12.lookup_acc m a with h1 | ⟨h1n, c, h1b, _⟩
      · exact h1.symm.trans h3n
      · rw [h1b] at h3n; exact absurd h3n (by simp)

/-- When lookup fails, no entry carries the key. -/
theorem lookupChild_none_forall {cs : List (α × Nat)} {k : α}
    (h : lookupChild cs k = none) : ∀ e ∈ cs, e.1 ≠ k := by
  induction cs with
  | nil => intro e he; simp at he
  | cons e0 rest ih =>
    obtain ⟨x, y⟩ := e0
    intro e he
    by_cases hx : x = k
    · subst hx
      simp [lookupChild] at h
    · simp only [lookupChild, if_neg hx] at h
      rcases List.mem_cons.mp he with rfl | hmem
      · exact hx
      · exact ih h e hmem

/-- With pairwise distinct keys, membership determines the lookup. -/
theorem lookupChild_of_mem_nodup {cs : List (α × Nat)}
    (hpw : cs.Pairwise (fun e1 e2 => e1.1 ≠ e2.1)) {k : α} {j : Nat}
    (hm : (k, j) ∈ cs) : lookupChild cs k = some j := by
  induction cs with
  | nil => simp at hm
  | cons e0 rest ih =>
    obtain ⟨x, y⟩ := e0
    rcases List.mem_cons.mp hm with heq | hmem
    · injection heq.symm with h1 h2
      subst h1
      subst h2
      simp [lookupChild]
    · have hx : x ≠ k := by
        have := (List.pairwise_cons.mp hpw).1 (k, j) hmem
        simpa using this
      simp only [lookupChild, if_neg hx]
      exact ih (List.pairwise_cons.mp hpw).2 hmem

/-- The node creation step of add: appending a fresh node and binding it as
the k child of node i is an AddExtends step that keeps edges forward, binds
k to the fresh node, and gives the fresh node an empty, valueless slot. -/
theorem attach_step (t t2 : Trie α β) (i : Nat) (k : α) (n : TrieNode α β)
    (hcb : ChildrenCB t) (hn : nodeAt t i = some n) (hl : lookupChild n.children k = none)
    (ht2 : t2 = updateNode { t with nodes := t.nodes ++ [⟨some k, none, none, []⟩] } i
      (fun nd => { nd with children := setChild nd.children k t.nodes.length })) :
    AddExtends t t2 ∧ ChildrenCB t2 ∧ t2.nodes.length = t.nodes.length + 1 ∧
    lookupChild (childrenOf t2 i) k = some t.nodes.length ∧
    nodeAt t2 t.nodes.length = some ⟨some k, none, none, []⟩ := by
  have hi : i < t.nodes.length := lt_of_nodeAt_some hn
  set nw : TrieNode α β := ⟨some k, none, none, []⟩ with hnw
  set t1 : Trie α β := { t with nodes := t.nodes ++ [nw] } with ht1
  have hlen1 : t1.nodes.length = t.nodes.length + 1 := by simp [ht1]
  have hn1 : ∀ x, x < t.nodes.length → nodeAt t1 x = nodeAt t x := by
    intro x hx
    unfold nodeAt
    exact List.get?_append hx
  have hn1i : nodeAt t1 i = some n := by rw [hn1 i hi, hn]
  have hn1m : nodeAt t1 t.nodes.length = some nw := by
    unfold nodeAt
    exact List.get?_concat_length t.nodes nw
  have hn1big : ∀ x, t.nodes.length + 1 ≤ x → nodeAt t1 x = none := by
    intro x hx
    apply nodeAt_none_of_le
    rw [hlen1]
    exact hx
  have hsc : setChild n.children k t.nodes.length = n.children ++ [(k, t.nodes.length)] :=
    setChild_of_lookup_none t.nodes.length hl
  have hupd : ∀ x, nodeAt t2 x =
      if i = x then some { n with children := n.children ++ [(k, t.nodes.length)] }
      else nodeAt t1 x := by
    intro x
    rw [ht2, nodeAt_updateNode]
    by_cases hix : i = x
    · rw [if_pos hix, if_pos hix, hn1i]
      simp [hsc]
    · rw [if_neg hix, if_neg hix]
  have hlen2 : t2.nodes.length = t.nodes.length + 1 := by
    rw [ht2, length_updateNode]
    exact hlen1
  have hchi : childrenOf t2 i = n.children ++ [(k, t.nodes.length)] := by
    unfold childrenOf
    rw [hupd i, if_pos rfl]
    rfl
  have hchother : ∀ x, i ≠ x → x < t.nodes.length → childrenOf t2 x = childrenOf t x := by
    intro x hix hx
    unfold childrenOf
    rw [hupd x, if_neg hix, hn1 x hx]
  have hchm : childrenOf t2 t.nodes.length = [] := by
    unfold childrenOf
    rw [hupd _, if_neg (by omega), hn1m]
    rfl
  have hchbig : ∀ x, t.nodes.length + 1 ≤ x → childrenOf t2 x = [] := by
    intro x hx
    unfold childrenOf
    rw [hupd x, if_neg (by omega), hn1big x hx]
    rfl
  have hcht : childrenOf t i = n.children := by
    unfold childrenOf
    rw [hn]
    rfl
  have hmem : ∀ x e, e ∈ childrenOf t2 x ↔
      (e ∈ childrenOf t x ∨ (x = i ∧ e = (k, t.nodes.length))) := by
    intro x e
    by_cases hix : i = x
    · subst hix
      rw [hchi, hcht]
      simp [List.mem_append]
    · constructor
      · intro hmem2
        by_cases hx : x < t.nodes.length
        · rw [hchother x hix hx] at hmem2
          exact Or.inl hmem2
        · by_cases hxm : x = t.nodes.length
          · subst hxm
            rw [hchm] at hmem2
            simp at hmem2
          · rw [hchbig x (by omega)] at hmem2
            simp at hmem2
      · intro hmem2
        rcases hmem2 with hmem2 | ⟨hxi, _⟩
        · by_cases hx : x < t.nodes.length
          · rw [hchother x hix hx]
            exact hmem2
          · have hempty : childrenOf t x = [] := by
              unfold childrenOf
              rw [nodeAt_none_of_le (by omega)]
              rfl
            rw [hempty] at hmem2
            simp at hmem2
        · exact absurd hxi.symm hix
  have hvalfail : ∀ x, x < t.nodes.length →
      keyAt t2 x = keyAt t x ∧ failAt t2 x = failAt t x ∧ valueAt t2 x = valueAt t x := by
    intro x hx
    unfold keyAt failAt valueAt
    rw [hupd x]
    by_cases hix : i = x
    · subst hix
      rw [if_pos rfl, hn]
      simp
    · rw [if_neg hix, hn1 x hx]
      exact ⟨rfl, rfl, rfl⟩
  have hfreshslot : ∀ x, t.nodes.length ≤ x → valueAt t2 x = none ∧ failAt t2 x = none := by
    intro x hx
    unfold valueAt failAt
    rw [hupd x, if_neg (by omega)]
    by_cases hxm : x = t.nodes.length
    · subst hxm
      rw [hn1m]
      simp [hnw]
    · rw [hn1big x (by omega)]
      simp
  have hrange : t2.items_range = t.items_range := by
    rw [ht2, itemsRange_updateNode]
  have hcontent : t2.content = t.content := by
    rw [ht2, content_updateNode]
  have hcb2 : ChildrenCB t2 := by
    intro x e he
    rcases (hmem x e).mp he with h | ⟨hxi, hek⟩
    · have := hcb x e h
      omega
    · subst hxi
      rw [hek]
      simp only
      omega
  refine ⟨⟨by omega, hrange, hcontent,
      fun x hx => (hvalfail x hx).1,
      fun x hx => (hvalfail x hx).2.1,
      fun x hx => (hvalfail x hx).2.2,
      fun x hx => (hfreshslot x hx).1,
      fun x hx => (hfreshslot x hx).2,
      ?_, ?_, ?_, ?_, ?_, ?_⟩, hcb2, hlen2, ?_, ?_⟩
  · intro x e he
    exact (hmem x e).mpr (Or.inl he)
  · intro x e he
    rcases (hmem x e).mp he with h | ⟨_, hek⟩
    · exact Or.inl h
    · rw [hek]
      exact Or.inr le_rfl
  · intro m1 m2 e1 e2 h1 h2 hfr heq
    rcases (hmem m1 e1).mp h1 with h1o | ⟨hm1, he1⟩
    · exact absurd (hcb m1 e1 h1o).2 (not_lt.mpr hfr)
    · rcases (hmem m2 e2).mp h2 with h2o | ⟨hm2, he2⟩
      · rw [he1] at heq
        have := (hcb m2 e2 h2o).2
        omega
      · rw [hm1, hm2, he1, he2]
        exact ⟨rfl, rfl⟩
  · intro x hx hlt
    have hxm : x = t.nodes.length := by omega
    subst hxm
    exact ⟨i, (k, t.nodes.length), (hmem i _).mpr (Or.inr ⟨rfl, rfl⟩), rfl⟩
  · intro x a
    by_cases hix : i = x
    · subst hix
      rw [hchi, hcht, lookupChild_append]
      cases hla : lookupChild n.children a with
      | some b => exact Or.inl rfl
      | none =>
        by_cases hak : k = a
        · subst hak
          refine Or.inr ⟨rfl, t.nodes.length, ?_, le_rfl⟩
          simp [lookupChild]
        · left
          simp [lookupChild, hak]
    · by_cases hx : x < t.nodes.length
      · rw [hchother x hix hx]
        exact Or.inl rfl
      · have h2 : childrenOf t2 x = [] := by
          by_cases hxm : x = t.nodes.length
          · subst hxm; exact hchm
          · exact hchbig x (by omega)
        have h0 : childrenOf t x = [] := by
          unfold childrenOf
          rw [nodeAt_none_of_le (by omega)]
          rfl
        rw [h2, h0]
        exact Or.inl rfl
  · intro x hpw
    by_cases hix : i = x
    · subst hix
      rw [hchi]
      rw [hcht] at hpw
      rw [List.pairwise_append]
      refine ⟨hpw, List.pairwise_singleton _ _, ?_⟩
      intro e he e2 he2
      have hek := lookupChild_none_forall hl e he
      rcases List.mem_singleton.mp he2 with rfl
      simpa using hek
    · by_cases hx : x < t.nodes.length
      · rw [hchother x hix hx]
        exact hpw
      · by_cases hxm : x = t.nodes.length
        · subst hxm
          rw [hchm]
          exact List.Pairwise.nil
        · rw [hchbig x (by omega)]
          exact List.Pairwise.nil
  · rw [hchi, lookupChild_append]
    cases hla : lookupChild n.children k with
    | some b => rw [hla] at hl; exact absurd hl (by simp)
    | none => simp [lookupChild]
  · rw [hupd _, if_neg (by omega), hn1m]

/-- The children list of a dereferenced node. -/
theorem childrenOf_eq_of_nodeAt {t : Trie α β} {x : Nat} {n : TrieNode α β}
    (h : nodeAt t x = some n) : childrenOf t x = n.children := by
  unfold childrenOf
  rw [h]
  rfl

/-- Successful child lookups survive an AddExtends step. -/
theorem AddExtends.lookup_mono {t ta : Trie α β} (h : AddExtends t ta) {m : Nat} {a : α}
    {b : Nat} (hl : lookupChild (childrenOf t m) a = some b) :
    lookupChild (childrenOf ta m) a = some b := by
  rcases h.lookup_acc m a with he | ⟨hnone, _⟩
  · rw [he]
    exact hl
  · rw [hnone] at hl
    exact absurd hl (by simp)

/-- The walk of add extends the trie, keeps edges forward, lands in range,
and afterwards the walked sequence descends exactly to the returned node. -/
theorem addFrom_spec : ∀ (s : List α) (t : Trie α β) (i : Nat),
    ChildrenCB t → i < t.nodes.length →
    AddExtends t (addFrom t i s).1 ∧ ChildrenCB (addFrom t i s).1 ∧
    (addFrom t i s).2 < (addFrom t i s).1.nodes.length ∧
    getNodeFrom (addFrom t i s).1 i s = some (addFrom t i s).2 := by
  intro s
  induction s with
  | nil =>
    intro t i hcb hi
    exact ⟨AddExtends.of_cb hcb, hcb, hi, rfl⟩
  | cons k rest ih =>
    intro t i hcb hi
    obtain ⟨n, hn⟩ := nodeAt_some_of_lt hi
    have hchn : childrenOf t i = n.children := childrenOf_eq_of_nodeAt hn
    cases hl : lookupChild n.children k with
    | some j =>
      have hres : addFrom t i (k :: rest) = addFrom t j rest := by
        simp only [addFrom, hn, hl]
      have hj : j < t.nodes.length := by
        have hmem := lookupChild_mem hl
        rw [← hchn] at hmem
        exact (hcb i (k, j) hmem).2
      obtain ⟨hext, hcb2, hlt2, hwalk⟩ := ih t j hcb hj
      rw [hres]
      refine ⟨hext, hcb2, hlt2, ?_⟩
      obtain ⟨n2, hn2⟩ := nodeAt_some_of_lt (lt_of_lt_of_le hi hext.len_le)
      have hl2 : lookupChild n2.children k = some j := by
        rw [← childrenOf_eq_of_nodeAt hn2]
        apply hext.lookup_mono
        rw [hchn]
        exact hl
      simp only [getNodeFrom, hn2, hl2]
      exact hwalk
    | none =>
      have hres : addFrom t i (k :: rest) =
          addFrom (updateNode { t with nodes := t.nodes ++ [⟨some k, none, none, []⟩] } i
            (fun nd => { nd with children := setChild nd.children k t.nodes.length }))
            t.nodes.length rest := by
        simp only [addFrom, hn, hl]
      obtain ⟨hext1, hcb2, hlen2, hlk2, _⟩ :=
        attach_step t _ i k n hcb hn hl rfl
      have hm2 : t.nodes.length <
          (updateNode { t with nodes := t.nodes ++ [⟨some k, none, none, []⟩] } i
            (fun nd =>
              { nd with children := setChild nd.children k t.nodes.length })).nodes.length := by
        omega
      obtain ⟨hext2, hcb3, hlt3, hwalk3⟩ := ih _ t.nodes.length hcb2 hm2
      rw [hres]
      refine ⟨hext1.trans hext2, hcb3, hlt3, ?_⟩
      have hilt : i < (addFrom (updateNode { t with nodes := t.nodes ++
          [⟨some k, none, none, []⟩] } i
          (fun nd => { nd with children := setChild nd.children k t.nodes.length }))
          t.nodes.length rest).1.nodes.length := by
        have h1 := hext2.len_le
        omega
      obtain ⟨n3, hn3⟩ := nodeAt_some_of_lt hilt
      have hl3 : lookupChild n3.children k = some t.nodes.length := by
        rw [← childrenOf_eq_of_nodeAt hn3]
        exact hext2.lookup_mono hlk2
      simp only [getNodeFrom, hn3, hl3]
      exact hwalk3

/-- Walking a concatenated sequence is walking the first part and continuing
from the reached node. -/
theorem getNodeFrom_append (t : Trie α β) (x : List α) :
    ∀ (s : List α) (i : Nat),
      getNodeFrom t i (s ++ x) = (getNodeFrom t i s).bind (fun j => getNodeFrom t j x) := by
  intro s
  induction s with
  | nil => intro i; simp [getNodeFrom]
  | cons k rest ih =>
    intro i
    show getNodeFrom t i (k :: (rest ++ x)) = _
    cases hn : nodeAt t i with
    | none => simp [getNodeFrom, hn]
    | some n =>
      cases hl : lookupChild n.children k with
      | none => simp [getNodeFrom, hn, hl]
      | some j => simp [getNodeFrom, hn, hl, ih j]

/-- C8: prefix monotonicity: in every state of the structure, if match (the
isPrefix test) is false on s then it is false on every extension s ++ x. -/
theorem C8_isPrefix_monotone (t : Trie α β) (s x : List α)
    (h : matchSeq t s = false) : matchSeq t (s ++ x) = false := by
  unfold matchSeq getNode at h ⊢
  rw [getNodeFrom_append]
  cases hg : getNodeFrom t 0 s with
  | none => rfl
  | some j => rw [hg] at h; simp at h

/-- C8 witness: in the example trie, [4] is not a prefix of any stored key,
and neither is its extension [4, 1]. -/
theorem C8_witness : matchSeq tC2 [4] = false ∧ matchSeq tC2 ([4] ++ [1]) = false :=
  ⟨by decide, C8_isPrefix_monotone tC2 [4] [1] (by decide)⟩

/-- C9: on a sequence that is not stored as a key (no node reached, or the
reached node holds no value, which is exactly storedValue = none), get with
no default raises KeyError and get with a default returns the default. -/
theorem C9_get_missing (t : Trie α β) (s : List α)
    (h : storedValue t s = none) :
    get t s none = Except.error () ∧ ∀ dv : β, get t s (some dv) = Except.ok dv := by
  constructor
  · unfold get
    rw [h]
  · intro dv
    unfold get
    rw [h]

/-- C9 witness: in the example trie the sequence [1] reaches a pure prefix
node holding no value, so get raises without a default and returns the
default otherwise. -/
theorem C9_witness :
    get tC2 [1] none = Except.error () ∧ get tC2 [1] (some 7) = Except.ok 7 :=
  ⟨(C9_get_missing tC2 [1] (by decide)).1, (C9_get_missing tC2 [1] (by decide)).2 7⟩

/-- C2 counterexample: the claim asserts that searching ushers yields no
entry at the position of the final s (index 5); the code in fact yields the
entry (5, [12]) there, because the stored sequence hers (value 12) ends at
that position.  The full output also shows the asserted (3, [11, 10]). -/
theorem C2_counterexample :
    search tC2auto 20 ushersSeq = some [(3, [11, 10]), (5, [12])] := by decide

/-- C2 amended: searching ushers yields at index 3 (end of she) exactly the
value list [11, 10] (B for she first, then A for its suffix he), and at index
5 (the final s) the value list [12] (C for hers, which ends there). -/
theorem C2_overlap_amended :
    (search tC2auto 20 ushersSeq).map (List.lookup 3) = some (some [11, 10]) ∧
    (search tC2auto 20 ushersSeq).map (List.lookup 5) = some (some [12]) := by decide

/-- The length loop never terminates on the compiled empty trie: the stack
step maps the stack [0] back to [0] because the root is its own child. -/
theorem lenLoop_tC5auto_none : ∀ (fuel acc : Nat), lenLoop tC5auto fuel [0] acc = none := by
  intro fuel
  induction fuel with
  | zero => intro acc; rfl
  | succ n ih => intro acc; exact ih acc

/-- C5: make_automaton succeeds on the failing input (the empty trie over a
one item universe) and before compilation len returns 0, but after
compilation the len loop returns for no amount of fuel: the synthetic root
self-transition makes the stack traversal revisit the root forever, so
size() does not return the number of value-holding nodes. -/
theorem C5_len_diverges_after_compile :
    make_automaton tC5 5 = some tC5auto ∧
    trieLen tC5 1 = some 0 ∧
    ∀ fuel : Nat, trieLen tC5auto fuel = none :=
  ⟨rfl, rfl, fun fuel => lenLoop_tC5auto_none fuel 0⟩

/-- Dangling indices have no children. -/
theorem childrenOf_nil_of_le {t : Trie α β} {m : Nat} (h : t.nodes.length ≤ m) :
    childrenOf t m = [] := by
  unfold childrenOf
  rw [nodeAt_none_of_le h]
  rfl

/-- The root slot of a well-formed trie is in range. -/
theorem WfTrie.root_pos {t : Trie α β} (hw : WfTrie t) : 0 < t.nodes.length := hw.1

/-- A well-formed trie has forward edges. -/
theorem WfTrie.cb {t : Trie α β} (hw : WfTrie t) : ChildrenCB t := by
  intro m e he
  by_cases hm : m < t.nodes.length
  · exact hw.2.1 m (List.mem_range.mpr hm) e he
  · rw [childrenOf_nil_of_le (not_lt.mp hm)] at he
    simp at he

/-- In a well-formed trie any two edges into the same node coincide. -/
theorem WfTrie.up {t : Trie α β} (hw : WfTrie t) :
    ∀ i1 i2 e1 e2, e1 ∈ childrenOf t i1 → e2 ∈ childrenOf t i2 → e1.2 = e2.2 →
      i1 = i2 ∧ e1.1 = e2.1 := by
  intro i1 i2 e1 e2 h1 h2 heq
  by_cases hb1 : i1 < t.nodes.length
  · by_cases hb2 : i2 < t.nodes.length
    · exact hw.2.2.1 i1 (List.mem_range.mpr hb1) i2 (List.mem_range.mpr hb2) e1 h1 e2 h2 heq
    · rw [childrenOf_nil_of_le (not_lt.mp hb2)] at h2
      simp at h2
  · rw [childrenOf_nil_of_le (not_lt.mp hb1)] at h1
    simp at h1

/-- Every non-root node of a well-formed trie has an incoming edge. -/
theorem WfTrie.parent {t : Trie α β} (hw : WfTrie t) :
    ∀ j, j < t.nodes.length → j ≠ 0 → ∃ i e, e ∈ childrenOf t i ∧ e.2 = j := by
  intro j hj hj0
  rcases hw.2.2.2.1 j (List.mem_range.mpr hj) hj0 with ⟨i, _, e, he, het⟩
  exact ⟨i, e, he, het⟩

/-- In a well-formed (uncompiled) trie every fail slot is NIL. -/
theorem WfTrie.fails {t : Trie α β} (hw : WfTrie t) : ∀ j, failAt t j = none := by
  intro j
  by_cases hj : j < t.nodes.length
  · exact hw.2.2.2.2.1 j (List.mem_range.mpr hj)
  · unfold failAt
    rw [nodeAt_none_of_le (not_lt.mp hj)]
    rfl

/-- The root of a well-formed trie has no keyitem. -/
theorem WfTrie.key0 {t : Trie α β} (hw : WfTrie t) : keyAt t 0 = none := hw.2.2.2.2.2.1

/-- The root of a well-formed trie holds no value. -/
theorem WfTrie.value0 {t : Trie α β} (hw : WfTrie t) : valueAt t 0 = none :=
  hw.2.2.2.2.2.2.1

/-- Each children dictionary of a well-formed trie has pairwise distinct
keys. -/
theorem WfTrie.nodupKeys {t : Trie α β} (hw : WfTrie t) :
    ∀ i, (childrenOf t i).Pairwise (fun e1 e2 => e1.1 ≠ e2.1) := by
  intro i
  by_cases hi : i < t.nodes.length
  · exact hw.2.2.2.2.2.2.2 i (List.mem_range.mpr hi)
  · rw [childrenOf_nil_of_le (not_lt.mp hi)]
    exact List.Pairwise.nil

/-- Well-formedness transfers along an AddExtends step with forward edges. -/
theorem wf_of_extends {t ta : Trie α β} (hw : WfTrie t) (hext : AddExtends t ta)
    (hcb : ChildrenCB ta) : WfTrie ta := by
  refine ⟨lt_of_lt_of_le hw.root_pos hext.len_le, ?_, ?_, ?_, ?_, ?_, ?_, ?_⟩
  · intro i _ e he
    exact hcb i e he
  · intro i1 _ i2 _ e1 h1 e2 h2 heq
    by_cases hfr : t.nodes.length ≤ e1.2
    · rcases hext.fresh_unique i1 i2 e1 e2 h1 h2 hfr heq with ⟨hi, he⟩
      exact ⟨hi, by rw [he]⟩
    · have h1o : e1 ∈ childrenOf t i1 := by
        rcases hext.edges_sub i1 e1 h1 with h | h
        · exact h
        · exact absurd h hfr
      have h2o : e2 ∈ childrenOf t i2 := by
        rcases hext.edges_sub i2 e2 h2 with h | h
        · exact h
        · rw [← heq] at h
          exact absurd h hfr
      exact hw.up i1 i2 e1 e2 h1o h2o heq
  · intro j hj hj0
    have hjlt : j < ta.nodes.length := List.mem_range.mp hj
    by_cases hjt : j < t.nodes.length
    · rcases hw.parent j hjt hj0 with ⟨i, e, he, het⟩
      have hta : e ∈ childrenOf ta i := hext.edges_pres i e he
      have hi : i < ta.nodes.length := lt_trans (hcb i e hta).1 (hcb i e hta).2
      exact ⟨i, List.mem_range.mpr hi, e, hta, het⟩
    · rcases hext.fresh_parent j (not_lt.mp hjt) hjlt with ⟨i, e, he, het⟩
      have hi : i < ta.nodes.length := lt_trans (hcb i e he).1 (hcb i e he).2
      exact ⟨i, List.mem_range.mpr hi, e, he, het⟩
  · intro j _
    by_cases hjt : j < t.nodes.length
    · rw [hext.fail_pres j hjt]
      exact hw.fails j
    · exact hext.fail_fresh j (not_lt.mp hjt)
  · rw [hext.key_pres 0 hw.root_pos]
    exact hw.key0
  · rw [hext.value_pres 0 hw.root_pos]
    exact hw.value0
  · intro i _
    exact hext.nodup_keys i (hw.nodupKeys i)

/-- A successful descent only visits in-range nodes. -/
theorem getNodeFrom_lt {t : Trie α β} (hcb : ChildrenCB t) :
    ∀ (s : List α) (i j : Nat), i < t.nodes.length → getNodeFrom t i s = some j →
      j < t.nodes.length := by
  intro s
  induction s with
  | nil =>
    intro i j hi h
    obtain rfl : i = j := by simpa [getNodeFrom] using h
    exact hi
  | cons k rest ih =>
    intro i j hi h
    cases hn : nodeAt t i with
    | none => simp only [getNodeFrom, hn] at h; exact absurd h (by simp)
    | some n =>
      simp only [getNodeFrom, hn] at h
      cases hl : lookupChild n.children k with
      | none => rw [hl] at h; exact absurd h (by simp)
      | some j1 =>
        rw [hl] at h
        have hmem : (k, j1) ∈ childrenOf t i := by
          rw [childrenOf_eq_of_nodeAt hn]
          exact lookupChild_mem hl
        exact ih j1 j (hcb i (k, j1) hmem).2 h

/-- A successful descent along a non-empty sequence ends strictly below the
root slot 0. -/
theorem getNodeFrom_pos {t : Trie α β} (hcb : ChildrenCB t) :
    ∀ (s : List α) (i j : Nat), s ≠ [] → getNodeFrom t i s = some j → 0 < j := by
  intro s
  induction s with
  | nil => intro i j hs _; exact absurd rfl hs
  | cons k rest ih =>
    intro i j _ h
    cases hn : nodeAt t i with
    | none => simp only [getNodeFrom, hn] at h; exact absurd h (by simp)
    | some n =>
      simp only [getNodeFrom, hn] at h
      cases hl : lookupChild n.children k with
      | none => rw [hl] at h; exact absurd h (by simp)
      | some j1 =>
        rw [hl] at h
        have hmem : (k, j1) ∈ childrenOf t i := by
          rw [childrenOf_eq_of_nodeAt hn]
          exact lookupChild_mem hl
        cases rest with
        | nil =>
          have hjj : j1 = j := by simpa [getNodeFrom] using h
          rw [← hjj]
          exact lt_of_le_of_lt (Nat.zero_le i) (hcb i (k, j1) hmem).1
        | cons k2 r2 => exact ih j1 j (by simp) h

/-- A successful non-trivial descent decomposes into a descent to the parent
followed by one child edge. -/
theorem getNodeFrom_last {t : Trie α β} :
    ∀ (s : List α) (i j : Nat), getNodeFrom t i s = some j →
      (s = [] ∧ j = i) ∨
      ∃ s0 k i2, s = s0 ++ [k] ∧ getNodeFrom t i s0 = some i2 ∧
        lookupChild (childrenOf t i2) k = some j := by
  intro s
  induction s with
  | nil =>
    intro i j h
    obtain rfl : i = j := by simpa [getNodeFrom] using h
    exact Or.inl ⟨rfl, rfl⟩
  | cons k rest ih =>
    intro i j h
    cases hn : nodeAt t i with
    | none => simp only [getNodeFrom, hn] at h; exact absurd h (by simp)
    | some n =>
      simp only [getNodeFrom, hn] at h
      cases hl : lookupChild n.children k with
      | none => rw [hl] at h; exact absurd h (by simp)
      | some j1 =>
        rw [hl] at h
        rcases ih j1 j h with ⟨hrest, rfl⟩ | ⟨s0, k2, i2, hseq, hwalk, hlk⟩
        · subst hrest
          refine Or.inr ⟨[], k, i, by simp, rfl, ?_⟩
          rw [childrenOf_eq_of_nodeAt hn]
          exact hl
        · refine Or.inr ⟨k :: s0, k2, i2, by rw [hseq]; rfl, ?_, hlk⟩
          simp only [getNodeFrom, hn, hl]
          exact hwalk

/-- Only the empty sequence descends to the root slot. -/
theorem getNode_zero_nil {t : Trie α β} (hcb : ChildrenCB t) {s : List α}
    (h : getNode t s = some 0) : s = [] := by
  rcases getNodeFrom_last s 0 0 h with ⟨hs, _⟩ | ⟨s0, k, i2, _, _, hlk⟩
  · exact hs
  · have hmem := lookupChild_mem hlk
    exact absurd (hcb i2 (k, 0) hmem).1 (by omega)

/-- Distinct sequences descend to distinct nodes of a well-formed trie. -/
theorem getNode_inj {t : Trie α β} (hw : WfTrie t) :
    ∀ (j : Nat) (p q : List α), getNode t p = some j → getNode t q = some j → p = q := by
  intro j
  induction j using Nat.strong_induction_on with
  | _ j ih =>
    intro p q hp hq
    by_cases hj0 : j = 0
    · subst hj0
      rw [getNode_zero_nil hw.cb hp, getNode_zero_nil hw.cb hq]
    · rcases getNodeFrom_last p 0 j hp with ⟨_, hji⟩ | ⟨p0, k1, i2, hpseq, hpwalk, hplk⟩
      · exact absurd hji hj0
      · rcases getNodeFrom_last q 0 j hq with ⟨_, hji⟩ | ⟨q0, k2, i3, hqseq, hqwalk, hqlk⟩
        · exact absurd hji hj0
        · have hm1 := lookupChild_mem hplk
          have hm2 := lookupChild_mem hqlk
          rcases hw.up i2 i3 (k1, j) (k2, j) hm1 hm2 rfl with ⟨hi, hk⟩
          have hij : i2 < j := (hw.cb i2 (k1, j) hm1).1
          subst hi
          have hp0q0 : p0 = q0 := ih i2 hij p0 q0 hpwalk hqwalk
          rw [hpseq, hqseq, hp0q0]
          simp at hk
          rw [hk]

/-- Descents transfer forward along an AddExtends step. -/
theorem AddExtends.getNodeFrom_mono {t ta : Trie α β} (hext : AddExtends t ta) :
    ∀ (s : List α) (i j : Nat), getNodeFrom t i s = some j → getNodeFrom ta i s = some j := by
  intro s
  induction s with
  | nil => intro i j h; exact h
  | cons k rest ih =>
    intro i j h
    cases hn : nodeAt t i with
    | none => simp only [getNodeFrom, hn] at h; exact absurd h (by simp)
    | some n =>
      simp only [getNodeFrom, hn] at h
      cases hl : lookupChild n.children k with
      | none => rw [hl] at h; exact absurd h (by simp)
      | some j1 =>
        rw [hl] at h
        have hi : i < t.nodes.length := lt_of_nodeAt_some hn
        obtain ⟨n2, hn2⟩ := nodeAt_some_of_lt (lt_of_lt_of_le hi hext.len_le)
        have hl2 : lookupChild n2.children k = some j1 := by
          rw [← childrenOf_eq_of_nodeAt hn2]
          apply hext.lookup_mono
          rw [childrenOf_eq_of_nodeAt hn]
          exact hl
        simp only [getNodeFrom, hn2, hl2]
        exact ih j1 j h

/-- A descent that starts at a fresh node stays among fresh nodes. -/
theorem AddExtends.fresh_stays {t ta : Trie α β} (hext : AddExtends t ta) :
    ∀ (s : List α) (m j : Nat), t.nodes.length ≤ m → getNodeFrom ta m s = some j →
      t.nodes.length ≤ j := by
  intro s
  induction s with
  | nil =>
    intro m j hm h
    obtain rfl : m = j := by simpa [getNodeFrom] using h
    exact hm
  | cons k rest ih =>
    intro m j hm h
    cases hn : nodeAt ta m with
    | none => simp only [getNodeFrom, hn] at h; exact absurd h (by simp)
    | some n =>
      simp only [getNodeFrom, hn] at h
      cases hl : lookupChild n.children k with
      | none => rw [hl] at h; exact absurd h (by simp)
      | some j1 =>
        rw [hl] at h
        have hmem : (k, j1) ∈ childrenOf ta m := by
          rw [childrenOf_eq_of_nodeAt hn]
          exact lookupChild_mem hl
        have hj1 : t.nodes.length ≤ j1 := by
          rcases hext.edges_sub m (k, j1) hmem with hold | hfr
          · rw [childrenOf_nil_of_le hm] at hold
            simp at hold
          · exact hfr
        exact ih j1 j hj1 h

/-- A descent of the extended trie that lands on an old node already existed
in the original trie (otherwise it lands on a fresh node). -/
theorem AddExtends.getNodeFrom_back {t ta : Trie α β} (hext : AddExtends t ta)
    (hcb : ChildrenCB t) :
    ∀ (s : List α) (i j : Nat), i < t.nodes.length → getNodeFrom ta i s = some j →
      getNodeFrom t i s = some j ∨ t.nodes.length ≤ j := by
  intro s
  induction s with
  | nil =>
    intro i j hi h
    obtain rfl : i = j := by simpa [getNodeFrom] using h
    exact Or.inl rfl
  | cons k rest ih =>
    intro i j hi h
    obtain ⟨n1, hn1⟩ := nodeAt_some_of_lt hi
    cases hn : nodeAt ta i with
    | none => simp only [getNodeFrom, hn] at h; exact absurd h (by simp)
    | some n2 =>
      simp only [getNodeFrom, hn] at h
      cases hl : lookupChild n2.children k with
      | none => rw [hl] at h; exact absurd h (by simp)
      | some j1 =>
        rw [hl] at h
        have hlch : lookupChild (childrenOf ta i) k = some j1 := by
          rw [childrenOf_eq_of_nodeAt hn]
          exact hl
        rcases hext.lookup_acc i k with hacc | ⟨_, b, hb, hble⟩
        · have hlt : lookupChild (childrenOf t i) k = some j1 := by
            rw [← hacc]
            exact hlch
          have hj1 : j1 < t.nodes.length := (hcb i (k, j1) (lookupChild_mem hlt)).2
          rcases ih j1 j hj1 h with hold | hfr
          · left
            have hlcn1 : lookupChild n1.children k = some j1 := by
              rw [← childrenOf_eq_of_nodeAt hn1]
              exact hlt
            simp only [getNodeFrom, hn1, hlcn1]
            exact hold
          · exact Or.inr hfr
        · have hbj : b = j1 := by
            rw [hlch] at hb
            exact (Option.some.injEq _ _ ▸ hb).symm ▸ rfl
          right
          apply hext.fresh_stays rest j1 j _ h
          rw [← hbj]
          exact hble

/-- The value of a dereferenced node. -/
theorem valueAt_eq_of_nodeAt {t : Trie α β} {x : Nat} {n : TrieNode α β}
    (h : nodeAt t x = some n) : valueAt t x = n.value := by
  unfold valueAt
  rw [h]
  rfl

/-- The fail of a dereferenced node. -/
theorem failAt_eq_of_nodeAt {t : Trie α β} {x : Nat} {n : TrieNode α β}
    (h : nodeAt t x = some n) : failAt t x = n.fail := by
  unfold failAt
  rw [h]
  rfl

/-- The keyitem of a dereferenced node. -/
theorem keyAt_eq_of_nodeAt {t : Trie α β} {x : Nat} {n : TrieNode α β}
    (h : nodeAt t x = some n) : keyAt t x = n.keyitem := by
  unfold keyAt
  rw [h]
  rfl

/-- Assigning a value changes no children. -/
theorem updValue_children (t : Trie α β) (j : Nat) (v : β) (x : Nat) :
    childrenOf (updateNode t j (fun nd => { nd with value := some v })) x =
      childrenOf t x := by
  unfold childrenOf
  rw [nodeAt_updateNode]
  by_cases h : j = x
  · subst h
    cases hn : nodeAt t j <;> simp [hn]
  · rw [if_neg h]

/-- Assigning a value changes no keyitem. -/
theorem updValue_key (t : Trie α β) (j : Nat) (v : β) (x : Nat) :
    keyAt (updateNode t j (fun nd => { nd with value := some v })) x = keyAt t x := by
  unfold keyAt
  rw [nodeAt_updateNode]
  by_cases h : j = x
  · subst h
    cases hn : nodeAt t j <;> simp [hn]
  · rw [if_neg h]

/-- Assigning a value changes no fail. -/
theorem updValue_fail (t : Trie α β) (j : Nat) (v : β) (x : Nat) :
    failAt (updateNode t j (fun nd => { nd with value := some v })) x = failAt t x := by
  unfold failAt
  rw [nodeAt_updateNode]
  by_cases h : j = x
  · subst h
    cases hn : nodeAt t j <;> simp [hn]
  · rw [if_neg h]

/-- Assigning a value changes node presence nowhere. -/
theorem updValue_isSome (t : Trie α β) (j : Nat) (v : β) (x : Nat) :
    (nodeAt (updateNode t j (fun nd => { nd with value := some v })) x).isSome =
      (nodeAt t x).isSome := by
  rw [nodeAt_updateNode]
  by_cases h : j = x
  · subst h
    cases hn : nodeAt t j <;> simp [hn]
  · rw [if_neg h]

/-- Assigning a value sets the value of the target node. -/
theorem updValue_value_self {t : Trie α β} {j : Nat} (hj : j < t.nodes.length) (v : β) :
    valueAt (updateNode t j (fun nd => { nd with value := some v })) j = some v := by
  obtain ⟨n, hn⟩ := nodeAt_some_of_lt hj
  unfold valueAt
  rw [nodeAt_updateNode, if_pos rfl, hn]
  rfl

/-- Assigning a value leaves every other value alone. -/
theorem updValue_value_other (t : Trie α β) {j x : Nat} (h : j ≠ x) (v : β) :
    valueAt (updateNode t j (fun nd => { nd with value := some v })) x = valueAt t x := by
  unfold valueAt
  rw [nodeAt_updateNode, if_neg h]

/-- Descents agree on tries with the same node presence and children. -/
theorem getNodeFrom_congr {t1 t2 : Trie α β}
    (hpres : ∀ x, (nodeAt t2 x).isSome = (nodeAt t1 x).isSome)
    (hch : ∀ x, childrenOf t2 x = childrenOf t1 x) :
    ∀ (s : List α) (i : Nat), getNodeFrom t2 i s = getNodeFrom t1 i s := by
  intro s
  induction s with
  | nil => intro i; rfl
  | cons k rest ih =>
    intro i
    cases h1 : nodeAt t1 i with
    | none =>
      have h2 : nodeAt t2 i = none := by
        have hp := hpres i
        rw [h1] at hp
        simpa using hp
      simp only [getNodeFrom, h1, h2]
    | some n1 =>
      have hp := hpres i
      rw [h1] at hp
      have hp2 : (nodeAt t2 i).isSome := by rw [hp]; rfl
      obtain ⟨n2, hn2⟩ := Option.isSome_iff_exists.mp hp2
      have hcc : n2.children = n1.children := by
        have hc := hch i
        rw [childrenOf_eq_of_nodeAt hn2, childrenOf_eq_of_nodeAt h1] at hc
        exact hc
      simp only [getNodeFrom, h1, hn2, hcc]
      cases hl : lookupChild n1.children k with
      | none => simp only [hl]
      | some j => simp only [hl]; exact ih j

/-- When the walked path already exists, add creates nothing. -/
theorem addFrom_of_getNode : ∀ (s : List α) (t : Trie α β) (i j : Nat),
    getNodeFrom t i s = some j → addFrom t i s = (t, j) := by
  intro s
  induction s with
  | nil =>
    intro t i j h
    have hij : i = j := by simpa [getNodeFrom] using h
    rw [addFrom, hij]
  | cons k rest ih =>
    intro t i j h
    cases hn : nodeAt t i with
    | none => simp only [getNodeFrom, hn] at h; exact absurd h (by simp)
    | some n =>
      simp only [getNodeFrom, hn] at h
      cases hl : lookupChild n.children k with
      | none => rw [hl] at h; exact absurd h (by simp)
      | some j1 =>
        rw [hl] at h
        have hres : addFrom t i (k :: rest) = addFrom t j1 rest := by
          simp only [addFrom, hn, hl]
        rw [hres]
        exact ih t j1 j h

/-- Assigning a value to a non-root node preserves well-formedness. -/
theorem wf_updValue {t : Trie α β} (hw : WfTrie t) {j : Nat} (hj : j ≠ 0) (v : β) :
    WfTrie (updateNode t j (fun nd => { nd with value := some v })) := by
  have hlen : (updateNode t j (fun nd =>
      { nd with value := some v })).nodes.length = t.nodes.length :=
    length_updateNode t j _
  refine ⟨by rw [hlen]; exact hw.root_pos, ?_, ?_, ?_, ?_, ?_, ?_, ?_⟩
  · intro i _ e he
    rw [updValue_children] at he
    have := hw.cb i e he
    omega
  · intro i1 _ i2 _ e1 h1 e2 h2 heq
    rw [updValue_children] at h1 h2
    exact hw.up i1 i2 e1 e2 h1 h2 heq
  · intro x hx hx0
    have hxlt : x < t.nodes.length := by
      have := List.mem_range.mp hx
      omega
    rcases hw.parent x hxlt hx0 with ⟨i, e, he, het⟩
    have hi : i < t.nodes.length := lt_trans (hw.cb i e he).1 (hw.cb i e he).2
    refine ⟨i, List.mem_range.mpr (by omega), e, ?_, het⟩
    rw [updValue_children]
    exact he
  · intro x _
    rw [updValue_fail]
    exact hw.fails x
  · rw [updValue_key]
    exact hw.key0
  · rw [updValue_value_other t hj]
    exact hw.value0
  · intro i _
    rw [updValue_children]
    exact hw.nodupKeys i

/-- Well-formedness is preserved by add. -/
theorem wf_add {t : Trie α β} (hw : WfTrie t) (s : List α) (v : β) :
    WfTrie (add t s v) := by
  cases s with
  | nil => exact hw
  | cons k rest =>
    obtain ⟨hext, hcb2, hlt, hwalk⟩ := addFrom_spec (k :: rest) t 0 hw.cb hw.root_pos
    have hwa : WfTrie (addFrom t 0 (k :: rest)).1 := wf_of_extends hw hext hcb2
    have hj0 : 0 < (addFrom t 0 (k :: rest)).2 :=
      getNodeFrom_pos hcb2 (k :: rest) 0 _ (by simp) hwalk
    exact wf_updValue hwa (by omega) v

/-- After add, descending the added sequence finds the assigned value. -/
theorem add_get_self {t : Trie α β} (hw : WfTrie t) {s : List α} (hs : s ≠ []) (v : β) :
    storedValue (add t s v) s = some v := by
  cases s with
  | nil => exact absurd rfl hs
  | cons k rest =>
    obtain ⟨hext, hcb2, hlt, hwalk⟩ := addFrom_spec (k :: rest) t 0 hw.cb hw.root_pos
    show storedValue (updateNode (addFrom t 0 (k :: rest)).1 (addFrom t 0 (k :: rest)).2
      (fun nd => { nd with value := some v })) (k :: rest) = some v
    unfold storedValue getNode
    rw [getNodeFrom_congr (updValue_isSome _ _ v) (updValue_children _ _ v) (k :: rest) 0,
      hwalk]
    simp only [Option.some_bind]
    exact updValue_value_self hlt v

/-- Adding a different sequence does not disturb the stored value of s. -/
theorem add_get_other {t : Trie α β} (hw : WfTrie t) {s2 : List α} (s : List α) (v : β)
    (hne : s2 ≠ s) : storedValue (add t s2 v) s = storedValue t s := by
  cases s2 with
  | nil => rfl
  | cons k rest =>
    obtain ⟨hext, hcb2, hlt, hwalk⟩ := addFrom_spec (k :: rest) t 0 hw.cb hw.root_pos
    have hwfta : WfTrie (addFrom t 0 (k :: rest)).1 := wf_of_extends hw hext hcb2
    show storedValue (updateNode (addFrom t 0 (k :: rest)).1 (addFrom t 0 (k :: rest)).2
      (fun nd => { nd with value := some v })) s = storedValue t s
    unfold storedValue getNode
    rw [getNodeFrom_congr (updValue_isSome _ _ v) (updValue_children _ _ v) s 0]
    cases hgs : getNodeFrom t 0 s with
    | some m =>
      have hta : getNodeFrom (addFrom t 0 (k :: rest)).1 0 s = some m :=
        hext.getNodeFrom_mono s 0 m hgs
      have hm : m < t.nodes.length := getNodeFrom_lt hw.cb s 0 m hw.root_pos hgs
      have hmne : (addFrom t 0 (k :: rest)).2 ≠ m := by
        intro heq
        apply hne
        exact getNode_inj hwfta (addFrom t 0 (k :: rest)).2 (k :: rest) s hwalk (heq ▸ hta)
      rw [hta]
      simp only [Option.some_bind]
      rw [updValue_value_other _ hmne, hext.value_pres m hm]
    | none =>
      cases hgs2 : getNodeFrom (addFrom t 0 (k :: rest)).1 0 s with
      | none => rfl
      | some m =>
        rcases hext.getNodeFrom_back hw.cb s 0 m hw.root_pos hgs2 with hold | hfr
        · rw [hold] at hgs
          exact absurd hgs (by simp)
        · have hmne : (addFrom t 0 (k :: rest)).2 ≠ m := by
            intro heq
            apply hne
            exact getNode_inj hwfta (addFrom t 0 (k :: rest)).2 (k :: rest) s hwalk
              (heq ▸ hgs2)
          simp only [Option.some_bind]
          rw [updValue_value_other _ hmne, hext.value_fresh m hfr]
          rfl

/-- A run of adds of sequences different from s preserves well-formedness
and the stored value of s. -/
theorem addAll_keeps {s : List α} {v : β} :
    ∀ (L : List (List α × β)) (t0 : Trie α β), WfTrie t0 → storedValue t0 s = some v →
      (∀ p ∈ L, p.1 ≠ s) → WfTrie (addAll t0 L) ∧ storedValue (addAll t0 L) s = some v := by
  intro L
  induction L with
  | nil => intro t0 h1 h2 _; exact ⟨h1, h2⟩
  | cons p L2 ih =>
    intro t0 hwf hsv hne
    have hstep : addAll t0 (p :: L2) = addAll (add t0 p.1 p.2) L2 := rfl
    rw [hstep]
    apply ih
    · exact wf_add hwf p.1 p.2
    · rw [add_get_other hwf s p.2 (hne p (List.mem_cons_self p L2))]
      exact hsv
    · intro q hq
      exact hne q (List.mem_cons_of_mem p hq)

/-- C6: round-trip: in a well-formed trie, after add(s, v) and any further
adds of sequences other than s, get(s) returns v (with or without a
default). -/
theorem C6_round_trip (t : Trie α β) (s : List α) (v : β) (L : List (List α × β))
    (hw : WfTrie t) (hs : s ≠ []) (hL : ∀ p ∈ L, p.1 ≠ s) (dflt : Option β) :
    get (addAll (add t s v) L) s dflt = Except.ok v := by
  have h1 : WfTrie (add t s v) := wf_add hw s v
  have h2 : storedValue (add t s v) s = some v := add_get_self hw hs v
  have h3 := addAll_keeps L (add t s v) h1 h2 hL
  unfold get
  rw [h3.2]

/-- C6 witness: building the example trie as empty, add [2,3] 10, then adds
of other sequences, lookup of [2,3] returns 10. -/
theorem C6_witness :
    get (addAll (add (emptyTrie Nat 5 contC) [2, 3] 10)
      [([1, 2, 3], 11), ([2, 3, 4, 1], 12)]) [2, 3] none = Except.ok 10 :=
  C6_round_trip (emptyTrie Nat 5 contC) [2, 3] 10 [([1, 2, 3], 11), ([2, 3, 4, 1], 12)]
    (by decide) (by decide) (by decide) none

/-- The len loop computes the same count on tries with the same node
presence, the same children and pointwise equally present values. -/
theorem lenLoop_congr {t1 t2 : Trie α β}
    (hpres : ∀ x, (nodeAt t2 x).isSome = (nodeAt t1 x).isSome)
    (hch : ∀ x, childrenOf t2 x = childrenOf t1 x)
    (hval : ∀ x, (valueAt t2 x).isSome = (valueAt t1 x).isSome) :
    ∀ (fuel : Nat) (stack : List Nat) (acc : Nat),
      lenLoop t2 fuel stack acc = lenLoop t1 fuel stack acc := by
  intro fuel
  induction fuel with
  | zero => intro stack acc; cases stack <;> rfl
  | succ f ih =>
    intro stack acc
    cases stack with
    | nil => rfl
    | cons i st =>
      cases h1 : nodeAt t1 i with
      | none =>
        have h2 : nodeAt t2 i = none := by
          have hp := hpres i
          rw [h1] at hp
          simpa using hp
        simp only [lenLoop, h1, h2]
      | some n1 =>
        have hp := hpres i
        rw [h1] at hp
        have hp2 : (nodeAt t2 i).isSome := by rw [hp]; rfl
        obtain ⟨n2, hn2⟩ := Option.isSome_iff_exists.mp hp2
        have hcc : n2.children = n1.children := by
          have hc := hch i
          rw [childrenOf_eq_of_nodeAt hn2, childrenOf_eq_of_nodeAt h1] at hc
          exact hc
        have hvv : n2.value.isSome = n1.value.isSome := by
          have hv := hval i
          rw [valueAt_eq_of_nodeAt hn2, valueAt_eq_of_nodeAt h1] at hv
          exact hv
        simp only [lenLoop, h1, hn2, hcc, hvv]
        exact ih _ _

/-- C7: overwrite: adding the same non-empty sequence twice leaves len (the
stored-key count) at what it was after the first add, for every fuel, and
get returns the second value. -/
theorem C7_overwrite (t : Trie α β) (s : List α) (v1 v2 : β)
    (hw : WfTrie t) (hs : s ≠ []) :
    (∀ fuel, trieLen (add (add t s v1) s v2) fuel = trieLen (add t s v1) fuel) ∧
    (∀ dflt, get (add (add t s v1) s v2) s dflt = Except.ok v2) := by
  have hw1 : WfTrie (add t s v1) := wf_add hw s v1
  have hsv1 : storedValue (add t s v1) s = some v1 := add_get_self hw hs v1
  obtain ⟨jf, hjf, hval⟩ := Option.bind_eq_some.mp hsv1
  have hpure : addFrom (add t s v1) 0 s = (add t s v1, jf) :=
    addFrom_of_getNode s _ 0 jf hjf
  have hjflt : jf < (add t s v1).nodes.length :=
    getNodeFrom_lt hw1.cb s 0 jf hw1.root_pos hjf
  have hform : add (add t s v1) s v2 =
      updateNode (add t s v1) jf (fun nd => { nd with value := some v2 }) := by
    cases s with
    | nil => exact absurd rfl hs
    | cons k rest =>
      show updateNode (addFrom (add t (k :: rest) v1) 0 (k :: rest)).1
        (addFrom (add t (k :: rest) v1) 0 (k :: rest)).2 _ = _
      rw [hpure]
  constructor
  · intro fuel
    unfold trieLen
    rw [hform]
    apply lenLoop_congr (updValue_isSome _ _ v2) (updValue_children _ _ v2)
    intro x
    by_cases hx : jf = x
    · subst hx
      rw [updValue_value_self hjflt v2, hval]
      rfl
    · rw [updValue_value_other _ hx v2]
  · intro dflt
    rw [hform]
    unfold get storedValue getNode
    rw [getNodeFrom_congr (updValue_isSome _ _ v2) (updValue_children _ _ v2) s 0]
    unfold getNode at hjf
    rw [hjf]
    simp only [Option.some_bind]
    rw [updValue_value_self hjflt v2]

/-- C7 witness: overwriting [2,3] in the example trie keeps len at 3 and
get returns the second value. -/
theorem C7_witness :
    trieLen (add (add tC2 [2, 3] 77) [2, 3] 78) 20 = trieLen (add tC2 [2, 3] 77) 20 ∧
    get (add (add tC2 [2, 3] 77) [2, 3] 78) [2, 3] none = Except.ok 78 :=
  ⟨(C7_overwrite tC2 [2, 3] 77 78 (by decide) (by decide)).1 20,
   (C7_overwrite tC2 [2, 3] 77 78 (by decide) (by decide)).2 none⟩

/-- Mutation never changes which slots are occupied. -/
theorem updateNode_isSome (t : Trie α β) (j : Nat) (f : TrieNode α β → TrieNode α β)
    (x : Nat) : (nodeAt (updateNode t j f) x).isSome = (nodeAt t x).isSome := by
  rw [nodeAt_updateNode]
  by_cases h : j = x
  · subst h
    cases hn : nodeAt t j <;> simp [hn]
  · rw [if_neg h]

/-- A mutation that keeps the children field keeps every children list. -/
theorem updateNode_children_of (t : Trie α β) (j x : Nat)
    {f : TrieNode α β → TrieNode α β} (hf : ∀ nd, (f nd).children = nd.children) :
    childrenOf (updateNode t j f) x = childrenOf t x := by
  unfold childrenOf
  rw [nodeAt_updateNode]
  by_cases h : j = x
  · subst h
    cases hn : nodeAt t j <;> simp [hn, hf]
  · rw [if_neg h]

/-- A mutation that keeps the keyitem field keeps every keyitem. -/
theorem updateNode_key_of (t : Trie α β) (j x : Nat)
    {f : TrieNode α β → TrieNode α β} (hf : ∀ nd, (f nd).keyitem = nd.keyitem) :
    keyAt (updateNode t j f) x = keyAt t x := by
  unfold keyAt
  rw [nodeAt_updateNode]
  by_cases h : j = x
  · subst h
    cases hn : nodeAt t j <;> simp [hn, hf]
  · rw [if_neg h]

/-- A mutation that keeps the value field keeps every value. -/
theorem updateNode_value_of (t : Trie α β) (j x : Nat)
    {f : TrieNode α β → TrieNode α β} (hf : ∀ nd, (f nd).value = nd.value) :
    valueAt (updateNode t j f) x = valueAt t x := by
  unfold valueAt
  rw [nodeAt_updateNode]
  by_cases h : j = x
  · subst h
    cases hn : nodeAt t j <;> simp [hn, hf]
  · rw [if_neg h]

/-- A mutation that keeps the fail field keeps every fail. -/
theorem updateNode_fail_of (t : Trie α β) (j x : Nat)
    {f : TrieNode α β → TrieNode α β} (hf : ∀ nd, (f nd).fail = nd.fail) :
    failAt (updateNode t j f) x = failAt t x := by
  unfold failAt
  rw [nodeAt_updateNode]
  by_cases h : j = x
  · subst h
    cases hn : nodeAt t j <;> simp [hn, hf]
  · rw [if_neg h]

/-- Assigning a fail link sets the fail of the target node. -/
theorem updFail_self {t : Trie α β} {j : Nat} (hj : j < t.nodes.length) (w : Nat) :
    failAt (updateNode t j (fun nd => { nd with fail := some w })) j = some w := by
  obtain ⟨n, hn⟩ := nodeAt_some_of_lt hj
  unfold failAt
  rw [nodeAt_updateNode, if_pos rfl, hn]
  rfl

/-- Assigning a fail link leaves other fails alone. -/
theorem updFail_other (t : Trie α β) {j x : Nat} (h : j ≠ x) (w : Nat) :
    failAt (updateNode t j (fun nd => { nd with fail := some w })) x = failAt t x := by
  unfold failAt
  rw [nodeAt_updateNode, if_neg h]

/-- Assigning a fail link never unsets a fail. -/
theorem updFail_mono (t : Trie α β) (j : Nat) (w : Nat) (x : Nat)
    (h : (failAt t x).isSome) :
    (failAt (updateNode t j (fun nd => { nd with fail := some w })) x).isSome := by
  by_cases hjx : j = x
  · subst hjx
    have hj : j < t.nodes.length := by
      unfold failAt at h
      cases hn : nodeAt t j with
      | none => rw [hn] at h; simp at h
      | some n => exact lt_of_nodeAt_some hn
    rw [updFail_self hj w]
    rfl
  · rw [updFail_other t hjx w]
    exact h

/-- StaticEq is reflexive. -/
theorem staticEq_refl (t : Trie α β) : StaticEq t t :=
  ⟨rfl, rfl, rfl, fun _ => rfl, fun _ => rfl, fun _ => rfl, fun _ => rfl⟩

/-- StaticEq composes. -/
theorem staticEq_trans {t1 t2 t3 : Trie α β} (h12 : StaticEq t1 t2)
    (h23 : StaticEq t2 t3) : StaticEq t1 t3 :=
  ⟨h23.1.trans h12.1, h23.2.1.trans h12.2.1, h23.2.2.1.trans h12.2.2.1,
   fun x => (h23.2.2.2.1 x).trans (h12.2.2.2.1 x),
   fun x => (h23.2.2.2.2.1 x).trans (h12.2.2.2.2.1 x),
   fun x => (h23.2.2.2.2.2.1 x).trans (h12.2.2.2.2.2.1 x),
   fun x => (h23.2.2.2.2.2.2 x).trans (h12.2.2.2.2.2.2 x)⟩

/-- Edge shape transfers along StaticEq. -/
theorem CBA_transfer {t ta : Trie α β} (hst : StaticEq t ta) (h : CBA t) : CBA ta := by
  intro m e he
  rw [hst.2.2.2.1 m] at he
  have h2 := h m e he
  have hlen := hst.1
  omega

/-- Depth assignments transfer along StaticEq. -/
theorem Depths_transfer {t ta : Trie α β} {d : Nat → Nat} (hst : StaticEq t ta)
    (h : Depths t d) : Depths ta d := by
  refine ⟨h.1, ?_, ?_⟩
  · intro j hj
    rw [hst.1] at hj
    exact h.2.1 j hj
  · intro i hi e he he0
    rw [hst.1] at hi
    rw [hst.2.2.2.1 i] at he
    exact h.2.2 i hi e he he0

/-- The universe precondition transfers along StaticEq. -/
theorem KeysCovered_transfer {t ta : Trie α β} (hst : StaticEq t ta)
    (h : KeysCovered t) : KeysCovered ta := by
  intro j hj hj0
  rw [hst.1] at hj
  rcases h j hj hj0 with ⟨i, hi, hkey⟩
  refine ⟨i, ?_, ?_⟩
  · rw [hst.2.1]
    exact hi
  · rw [hst.2.2.2.2.1 j, hst.2.2.1]
    exact hkey

/-- Reachability by child steps transfers along equal children. -/
theorem reflTransGen_childStep_transfer {t ta : Trie α β}
    (hch : ∀ x, childrenOf ta x = childrenOf t x) {a b : Nat}
    (h : Relation.ReflTransGen (childStep t) a b) :
    Relation.ReflTransGen (childStep ta) a b := by
  induction h with
  | refl => exact Relation.ReflTransGen.refl
  | tail _ hstep ih =>
    refine Relation.ReflTransGen.tail ih ?_
    rcases hstep with ⟨k, hk⟩
    refine ⟨k, ?_⟩
    rw [hch _]
    exact hk

/-- The step 1 loop preserves its invariant, only grows root lookups, never
unsets fails, only grows the queue, and makes every processed universe item
a root transition leading to the root or to a node whose fail is set. -/
theorem step1_fold (t : Trie α β) (hw : WfTrie t) :
    ∀ (L : List Nat) (tc : Trie α β) (qc : List Nat), Step1Inv t tc qc →
      Step1Inv t (L.foldl step1F (tc, qc)).1 (L.foldl step1F (tc, qc)).2 ∧
      (∀ a b, lookupChild (childrenOf tc 0) a = some b →
        lookupChild (childrenOf (L.foldl step1F (tc, qc)).1 0) a = some b) ∧
      (∀ x, (failAt tc x).isSome → (failAt (L.foldl step1F (tc, qc)).1 x).isSome) ∧
      (∀ j ∈ qc, j ∈ (L.foldl step1F (tc, qc)).2) ∧
      (∀ i ∈ L, (lookupChild (childrenOf (L.foldl step1F (tc, qc)).1 0)
          (t.content i)).isSome ∧
        (∀ f, lookupChild (childrenOf (L.foldl step1F (tc, qc)).1 0) (t.content i) =
            some f → f = 0 ∨ (failAt (L.foldl step1F (tc, qc)).1 f).isSome)) := by
  intro L
  induction L with
  | nil =>
    intro tc qc hinv
    exact ⟨hinv, fun a b h => h, fun x h => h, fun j h => h, by simp⟩
  | cons i L2 ih =>
    intro tc qc hinv
    have hce := hinv.content_eq
    rw [List.foldl_cons]
    cases hl : lookupChild (childrenOf tc 0) (t.content i) with
    | some j =>
      have hstep : step1F (tc, qc) i =
          (updateNode tc j (fun nd => { nd with fail := some 0 }), qc ++ [j]) := by
        simp only [step1F, hce, hl]
      rw [hstep]
      have hmem : (t.content i, j) ∈ childrenOf tc 0 := lookupChild_mem hl
      have hjlt : j < t.nodes.length := by
        rcases hinv.root_sub _ hmem with hold | h0
        · exact (hw.cb 0 _ hold).2
        · simp only at h0
          rw [h0]
          exact hw.root_pos
      have hjlt2 : j < tc.nodes.length := by rw [hinv.len_eq]; exact hjlt
      have hchu : ∀ x, childrenOf (updateNode tc j
          (fun nd => { nd with fail := some 0 })) x = childrenOf tc x :=
        fun x => updateNode_children_of tc j x (fun _ => rfl)
      have hku : ∀ x, keyAt (updateNode tc j
          (fun nd => { nd with fail := some 0 })) x = keyAt tc x :=
        fun x => updateNode_key_of tc j x (fun _ => rfl)
      have hvu : ∀ x, valueAt (updateNode tc j
          (fun nd => { nd with fail := some 0 })) x = valueAt tc x :=
        fun x => updateNode_value_of tc j x (fun _ => rfl)
      have hinv2 : Step1Inv t (updateNode tc j (fun nd => { nd with fail := some 0 }))
          (qc ++ [j]) := by
        refine ⟨?_, ?_, ?_, ?_, ?_, ?_, ?_, ?_, ?_, ?_, ?_, ?_, ?_⟩
        · rw [length_updateNode]; exact hinv.len_eq
        · rw [itemsRange_updateNode]; exact hinv.range_eq
        · rw [content_updateNode]; exact hinv.content_eq
        · intro x; rw [hku x]; exact hinv.key_eq x
        · intro x; rw [hvu x]; exact hinv.value_eq x
        · intro x; rw [updateNode_isSome]; exact hinv.pres_eq x
        · intro x hx; rw [hchu x]; exact hinv.ch_eq x hx
        · intro e he; rw [hchu 0]; exact hinv.root_sup e he
        · intro e he; rw [hchu 0] at he; exact hinv.root_sub e he
        · intro a b h; rw [hchu 0]; exact hinv.root_lookup a b h
        · intro x f hf
          by_cases hx : j = x
          · subst hx
            rw [updFail_self hjlt2 0] at hf
            injection hf with hf2
            exact hf2.symm
          · rw [updFail_other tc hx 0] at hf
            exact hinv.fail_zero x f hf
        · intro x hx
          by_cases hjx : j = x
          · subst hjx
            exact List.mem_append_right qc (by simp)
          · rw [updFail_other tc hjx 0] at hx
            exact List.mem_append_left [j] (hinv.set_queued x hx)
        · intro x hx
          rcases List.mem_append.mp hx with hxq | hxj
          · refine ⟨updFail_mono tc j 0 x (hinv.queued x hxq).1, ?_⟩
            rw [hchu 0]
            exact (hinv.queued x hxq).2
          · have hxj2 : x = j := by simpa using hxj
            subst hxj2
            refine ⟨by rw [updFail_self hjlt2 0]; rfl, ?_⟩
            rw [hchu 0]
            exact ⟨(t.content i, x), hmem, rfl⟩
      obtain ⟨hinvf, hlkmono, hfmono, hqmono, hcov⟩ := ih _ (qc ++ [j]) hinv2
      refine ⟨hinvf, ?_, ?_, ?_, ?_⟩
      · intro a b h
        apply hlkmono
        rw [hchu 0]
        exact h
      · intro x hx
        exact hfmono x (updFail_mono tc j 0 x hx)
      · intro x hx
        exact hqmono x (List.mem_append_left [j] hx)
      · intro i2 hi2
        rcases List.mem_cons.mp hi2 with rfl | hmem2
        · have hstepl : lookupChild (childrenOf (updateNode tc j
              (fun nd => { nd with fail := some 0 })) 0) (t.content i2) = some j := by
            rw [hchu 0]
            exact hl
          have hfin := hlkmono (t.content i2) j hstepl
          refine ⟨by rw [hfin]; rfl, ?_⟩
          intro f hf
          rw [hfin] at hf
          injection hf with hf2
          right
          rw [← hf2]
          apply hfmono
          rw [updFail_self hjlt2 0]
          rfl
        · exact hcov i2 hmem2
    | none =>
      have hstep : step1F (tc, qc) i =
          (updateNode tc 0 (fun nd =>
            { nd with children := setChild nd.children (t.content i) 0 }), qc) := by
        simp only [step1F, hce, hl]
      rw [hstep]
      have h0lt : 0 < tc.nodes.length := by rw [hinv.len_eq]; exact hw.root_pos
      obtain ⟨rootn, hroot⟩ := nodeAt_some_of_lt h0lt
      have hchr : childrenOf tc 0 = rootn.children := childrenOf_eq_of_nodeAt hroot
      have happ : setChild rootn.children (t.content i) 0 =
          rootn.children ++ [(t.content i, 0)] := by
        apply setChild_of_lookup_none
        rw [← hchr]
        exact hl
      have hch0 : childrenOf (updateNode tc 0 (fun nd =>
          { nd with children := setChild nd.children (t.content i) 0 })) 0 =
          rootn.children ++ [(t.content i, 0)] := by
        unfold childrenOf
        rw [nodeAt_updateNode, if_pos rfl, hroot]
        simpa using happ
      have hchx : ∀ x, x ≠ 0 → childrenOf (updateNode tc 0 (fun nd =>
          { nd with children := setChild nd.children (t.content i) 0 })) x =
          childrenOf tc x := by
        intro x hx
        unfold childrenOf
        rw [nodeAt_updateNode, if_neg (by omega)]
      have hfstable : ∀ x, failAt (updateNode tc 0 (fun nd =>
          { nd with children := setChild nd.children (t.content i) 0 })) x =
          failAt tc x :=
        fun x => updateNode_fail_of tc 0 x (fun _ => rfl)
      have hku : ∀ x, keyAt (updateNode tc 0 (fun nd =>
          { nd with children := setChild nd.children (t.content i) 0 })) x =
          keyAt tc x :=
        fun x => updateNode_key_of tc 0 x (fun _ => rfl)
      have hvu : ∀ x, valueAt (updateNode tc 0 (fun nd =>
          { nd with children := setChild nd.children (t.content i) 0 })) x =
          valueAt tc x :=
        fun x => updateNode_value_of tc 0 x (fun _ => rfl)
      have hinv2 : Step1Inv t (updateNode tc 0 (fun nd =>
          { nd with children := setChild nd.children (t.content i) 0 })) qc := by
        refine ⟨?_, ?_, ?_, ?_, ?_, ?_, ?_, ?_, ?_, ?_, ?_, ?_, ?_⟩
        · rw [length_updateNode]; exact hinv.len_eq
        · rw [itemsRange_updateNode]; exact hinv.range_eq
        · rw [content_updateNode]; exact hinv.content_eq
        · intro x; rw [hku x]; exact hinv.key_eq x
        · intro x; rw [hvu x]; exact hinv.value_eq x
        · intro x; rw [updateNode_isSome]; exact hinv.pres_eq x
        · intro x hx; rw [hchx x hx]; exact hinv.ch_eq x hx
        · intro e he
          rw [hch0]
          exact List.mem_append_left _ (by rw [← hchr]; exact hinv.root_sup e he)
        · intro e he
          rw [hch0] at he
          rcases List.mem_append.mp he with hl2 | hr2
          · exact hinv.root_sub e (by rw [hchr]; exact hl2)
          · have he2 : e = (t.content i, 0) := by simpa using hr2
            right
            rw [he2]
        · intro a b h
          rw [hch0, lookupChild_append]
          have hh : lookupChild rootn.children a = some b := by
            rw [← hchr]
            exact hinv.root_lookup a b h
          rw [hh]
        · intro x f hf
          rw [hfstable x] at hf
          exact hinv.fail_zero x f hf
        · intro x hx
          rw [hfstable x] at hx
          exact hinv.set_queued x hx
        · intro x hx
          refine ⟨by rw [hfstable x]; exact (hinv.queued x hx).1, ?_⟩
          rcases (hinv.queued x hx).2 with ⟨e, he, het⟩
          refine ⟨e, ?_, het⟩
          rw [hch0]
          exact List.mem_append_left _ (by rw [← hchr]; exact he)
      obtain ⟨hinvf, hlkmono, hfmono, hqmono, hcov⟩ := ih _ qc hinv2
      refine ⟨hinvf, ?_, ?_, hqmono, ?_⟩
      · intro a b h
        apply hlkmono
        rw [hch0, lookupChild_append]
        have hh : lookupChild rootn.children a = some b := by
          rw [← hchr]
          exact h
        rw [hh]
      · intro x hx
        apply hfmono
        rw [hfstable x]
        exact hx
      · intro i2 hi2
        rcases List.mem_cons.mp hi2 with rfl | hmem2
        · have hstepl : lookupChild (childrenOf (updateNode tc 0 (fun nd =>
              { nd with children := setChild nd.children (t.content i2) 0 })) 0)
              (t.content i2) = some 0 := by
            rw [hch0, lookupChild_append]
            have hh : lookupChild rootn.children (t.content i2) = none := by
              rw [← hchr]
              exact hl
            rw [hh]
            simp [lookupChild]
          have hfin := hlkmono (t.content i2) 0 hstepl
          refine ⟨by rw [hfin]; rfl, ?_⟩
          intro f hf
          rw [hfin] at hf
          injection hf with hf2
          left
          exact hf2.symm
        · exact hcov i2 hmem2

/-- What step 1 of make_automaton establishes on a well-formed trie. -/
theorem step1_spec (t : Trie α β) (hw : WfTrie t) :
    Step1Inv t (step1 t).1 (step1 t).2 ∧
    (∀ i, i < t.items_range →
      (lookupChild (childrenOf (step1 t).1 0) (t.content i)).isSome ∧
      (∀ f, lookupChild (childrenOf (step1 t).1 0) (t.content i) = some f →
        f = 0 ∨ (failAt (step1 t).1 f).isSome)) := by
  have hinv0 : Step1Inv t t [] := by
    refine ⟨rfl, rfl, rfl, fun _ => rfl, fun _ => rfl, fun _ => rfl, fun _ _ => rfl,
      fun e he => he, fun e he => Or.inl he, fun a b h => h, ?_, ?_, ?_⟩
    · intro j f hf
      rw [hw.fails j] at hf
      exact absurd hf (by simp)
    · intro j hj
      rw [hw.fails j] at hj
      simp at hj
    · intro j hj
      simp at hj
  obtain ⟨hinvf, _, _, _, hcov⟩ := step1_fold t hw (List.range t.items_range) t [] hinv0
  refine ⟨hinvf, ?_⟩
  intro i hi
  exact hcov i (List.mem_range.mpr hi)

/-- StaticEq is symmetric. -/
theorem StaticEq.symm {t ta : Trie α β} (h : StaticEq t ta) : StaticEq ta t :=
  ⟨h.1.symm, h.2.1.symm, h.2.2.1.symm, fun x => (h.2.2.2.1 x).symm,
   fun x => (h.2.2.2.2.1 x).symm, fun x => (h.2.2.2.2.2.1 x).symm,
   fun x => (h.2.2.2.2.2.2 x).symm⟩

/-- The fail chain walk never increases depth, as long as set fail links
decrease depth and the root fail (when set) points to the root. -/
theorem failWalk_descent {t : Trie α β} {d : Nat → Nat} {key : Option α}
    (h0 : ∀ f, failAt t 0 = some f → f = 0)
    (hiii : ∀ j f, j ≠ 0 → failAt t j = some f → d f < d j) :
    ∀ (fuel s s2 : Nat), failWalk t key fuel s = some s2 → d s2 ≤ d s := by
  intro fuel
  induction fuel with
  | zero => intro s s2 h; exact absurd h (by simp [failWalk])
  | succ f ih =>
    intro s s2 h
    cases hn : nodeAt t s with
    | none => simp only [failWalk, hn] at h; exact absurd h (by simp)
    | some st =>
      simp only [failWalk, hn] at h
      cases hcf : childFor st key with
      | some w =>
        rw [hcf] at h
        have : s = s2 := by simpa using h
        rw [← this]
      | none =>
        rw [hcf] at h
        cases hsf : st.fail with
        | none => rw [hsf] at h; exact absurd h (by simp)
        | some snext =>
          rw [hsf] at h
          have hfs : failAt t s = some snext := by
            rw [failAt_eq_of_nodeAt hn]
            exact hsf
          by_cases hs0 : s = 0
          · subst hs0
            have : snext = 0 := h0 snext hfs
            subst this
            exact ih 0 s2 h
          · have hlt : d snext < d s := hiii s snext hs0 hfs
            exact le_trans (ih snext s2 h) (le_of_lt hlt)

/-- The exit point of a fail chain walk is the start or a fail target. -/
theorem failWalk_source {t : Trie α β} {key : Option α} :
    ∀ (fuel s s2 : Nat), failWalk t key fuel s = some s2 →
      s2 = s ∨ ∃ y, failAt t y = some s2 := by
  intro fuel
  induction fuel with
  | zero => intro s s2 h; exact absurd h (by simp [failWalk])
  | succ f ih =>
    intro s s2 h
    cases hn : nodeAt t s with
    | none => simp only [failWalk, hn] at h; exact absurd h (by simp)
    | some st =>
      simp only [failWalk, hn] at h
      cases hcf : childFor st key with
      | some w =>
        rw [hcf] at h
        left
        have : s = s2 := by simpa using h
        exact this.symm
      | none =>
        rw [hcf] at h
        cases hsf : st.fail with
        | none => rw [hsf] at h; exact absurd h (by simp)
        | some snext =>
          rw [hsf] at h
          have hfs : failAt t s = some snext := by
            rw [failAt_eq_of_nodeAt hn]
            exact hsf
          rcases ih snext s2 h with rfl | hex
          · exact Or.inr ⟨s, hfs⟩
          · exact Or.inr hex

/-- The fail chain walk exits at a node having a child for the key. -/
theorem failWalk_exit {t : Trie α β} {key : Option α} :
    ∀ (fuel s s2 : Nat), failWalk t key fuel s = some s2 →
      ∃ st, nodeAt t s2 = some st ∧ (childFor st key).isSome := by
  intro fuel
  induction fuel with
  | zero => intro s s2 h; exact absurd h (by simp [failWalk])
  | succ f ih =>
    intro s s2 h
    cases hn : nodeAt t s with
    | none => simp only [failWalk, hn] at h; exact absurd h (by simp)
    | some st =>
      simp only [failWalk, hn] at h
      cases hcf : childFor st key with
      | some w =>
        rw [hcf] at h
        have : s = s2 := by simpa using h
        subst this
        exact ⟨st, hn, by rw [hcf]; rfl⟩
      | none =>
        rw [hcf] at h
        cases hsf : st.fail with
        | none => rw [hsf] at h; exact absurd h (by simp)
        | some snext =>
          rw [hsf] at h
          exact ih snext s2 h

/-- With the root fail pointing to itself, the walk for the keyitem None of
the root never exits: the crash that stops any run that enqueued the root. -/
theorem failWalk_none_zero {t : Trie α β} (hz : failAt t 0 = some 0) :
    ∀ fuel, failWalk t (none : Option α) fuel 0 = none := by
  intro fuel
  induction fuel with
  | zero => rfl
  | succ f ih =>
    cases hn : nodeAt t 0 with
    | none => simp only [failWalk, hn]
    | some st =>
      simp only [failWalk, hn]
      have hsf : st.fail = some 0 := by
        rw [failAt_eq_of_nodeAt hn] at hz
        exact hz
      have hcf : childFor st (none : Option α) = none := rfl
      rw [hcf, hsf]
      exact ih

/-- Processing the children of the root after a degenerate self-enqueue
always crashes: the first synthetic self-entry walks the root fail self-loop
with the keyitem None and never exits. -/
theorem processChildren_zero_none :
    ∀ (R : List (α × Nat)) (tc : Trie α β) (qacc : List Nat) (fuel : Nat),
      keyAt tc 0 = none → failAt tc 0 = some 0 → (∃ kk, (kk, (0 : Nat)) ∈ R) →
      processChildren tc 0 R qacc fuel = none := by
  intro R
  induction R with
  | nil =>
    intro tc qacc fuel _ _ hex
    rcases hex with ⟨kk, hm⟩
    simp at hm
  | cons e R2 ih =>
    intro tc qacc fuel hk0 hz hex
    obtain ⟨k, j⟩ := e
    cases hn : nodeAt tc 0 with
    | none =>
      unfold failAt at hz
      rw [hn] at hz
      exact absurd hz (by simp)
    | some current =>
      have hcf : current.fail = some 0 := by
        rw [failAt_eq_of_nodeAt hn] at hz
        exact hz
      by_cases hj : j = 0
      · subst hj
        have hkey : current.keyitem = none := by
          rw [keyAt_eq_of_nodeAt hn] at hk0
          exact hk0
        simp only [processChildren, hn, hcf, hkey, failWalk_none_zero hz fuel]
      · cases hnj : nodeAt tc j with
        | none => simp [processChildren, hn, hcf, hnj]
        | some node =>
          cases hw : failWalk tc node.keyitem fuel 0 with
          | none => simp [processChildren, hn, hcf, hnj, hw]
          | some s =>
            cases hns : nodeAt tc s with
            | none => simp [processChildren, hn, hcf, hnj, hw, hns]
            | some st =>
              simp only [processChildren, hn, hcf, hnj, hw, hns]
              apply ih
              · have hk2 : keyAt (updateNode tc j (fun nd =>
                    { nd with fail := some ((childFor st node.keyitem).getD 0) })) 0 =
                    keyAt tc 0 := updateNode_key_of tc j 0 (fun _ => rfl)
                rw [hk2]
                exact hk0
              · rw [updFail_other tc hj _]
                exact hz
              · rcases hex with ⟨kk, hm⟩
                rcases List.mem_cons.mp hm with heq | hm2
                · injection heq.symm with h1 h2
                  exact absurd h2 hj
                · exact ⟨kk, hm2⟩

/-- Reassociating a middle element of an append. -/
theorem append_cons_assoc {γ : Type} (q : List γ) (j : γ) (L : List γ) :
    (q ++ [j]) ++ L = q ++ (j :: L) := by
  simp

/-- What one run of the inner for loop of make_automaton step 2 establishes:
statics are untouched, fails only grow, the root fail is untouched, the
queue is extended by exactly the processed children, the processed children
all got their fail link assigned, the core invariant carries over, and under
the universe precondition the extended invariant carries over. -/
theorem processChildren_spec {d : Nat → Nat} {c : Nat} (hc0 : c ≠ 0) :
    ∀ (R : List (α × Nat)) (t : Trie α β) (qacc : List Nat) (fuel : Nat)
      (t2 : Trie α β) (q2 : List Nat),
      processChildren t c R qacc fuel = some (t2, q2) →
      0 < t.nodes.length → CBA t → Depths t d → keyAt t 0 = none →
      (∀ e ∈ R, e ∈ childrenOf t c) → c < t.nodes.length →
      AutoCore t d qacc →
      (KeysCovered t →
        (∀ x, x ≠ c → (failAt t x).isSome →
          (∀ e ∈ childrenOf t x, (failAt t e.2).isSome) ∨ x ∈ qacc ++ R.map Prod.snd) ∧
        (∀ e ∈ childrenOf t c, e ∈ R ∨ (failAt t e.2).isSome) ∧
        (∀ x f, failAt t x = some f → f = 0 ∨ (failAt t f).isSome ∨
          ∃ c2 ∈ qacc ++ R.map Prod.snd, Relation.ReflTransGen (childStep t) c2 f) ∧
        RootCoveredSet t) →
      StaticEq t t2 ∧ (∀ x, (failAt t x).isSome → (failAt t2 x).isSome) ∧
      failAt t2 0 = failAt t 0 ∧ q2 = qacc ++ R.map Prod.snd ∧
      (∀ e ∈ R, (failAt t2 e.2).isSome) ∧ AutoCore t2 d q2 ∧
      (KeysCovered t → AutoExt t2 q2) := by
  intro R
  induction R with
  | nil =>
    intro t qacc fuel t2 q2 h hroot hcba hdep hkey0 hR hclt hcore hext
    have hpair : t = t2 ∧ qacc = q2 := by
      simp only [processChildren] at h
      exact ⟨congrArg Prod.fst (Option.some.inj h), congrArg Prod.snd (Option.some.inj h)⟩
    obtain ⟨rfl, rfl⟩ := hpair
    refine ⟨staticEq_refl t, fun x hx => hx, rfl, by simp, by simp, by simpa using hcore, ?_⟩
    intro hcov
    obtain ⟨h1, h2, h3, h4⟩ := hext hcov
    refine ⟨?_, ?_, h4⟩
    · intro x hx
      by_cases hxc : x = c
      · subst hxc
        left
        intro e he
        rcases h2 e he with hm | hs
        · simp at hm
        · exact hs
      · rcases h1 x hxc hx with hl | hr
        · exact Or.inl hl
        · right
          simpa using hr
    · intro x f hf
      rcases h3 x f hf with hl | hm | ⟨c2, hc2, hrtg⟩
      · exact Or.inl hl
      · exact Or.inr (Or.inl hm)
      · refine Or.inr (Or.inr ⟨c2, ?_, hrtg⟩)
        simpa using hc2
  | cons e R2 ih =>
    intro t qacc fuel t2 q2 h hroot hcba hdep hkey0 hR hclt hcore hext
    obtain ⟨k, j⟩ := e
    cases hn : nodeAt t c with
    | none => simp [processChildren, hn] at h
    | some current =>
      simp only [processChildren, hn] at h
      cases hcf2 : current.fail with
      | none => simp [hcf2] at h
      | some s0 =>
        simp only [hcf2] at h
        cases hnj : nodeAt t j with
        | none => simp [hnj] at h
        | some node =>
          simp only [hnj] at h
          cases hw : failWalk t node.keyitem fuel s0 with
          | none => simp [hw] at h
          | some s =>
            simp only [hw] at h
            cases hns : nodeAt t s with
            | none => simp [hns] at h
            | some st =>
              simp only [hns] at h
              set w : Nat := (childFor st node.keyitem).getD 0 with hwdef
              have hs0 : failAt t c = some s0 := by
                rw [failAt_eq_of_nodeAt hn]
                exact hcf2
              have hej : (k, j) ∈ childrenOf t c := hR (k, j) (List.mem_cons_self _ _)
              have hcbaj := hcba c (k, j) hej
              have hjlt : j < t.nodes.length := hcbaj.1
              have hj0 : j ≠ 0 := fun hh => hc0 (hcbaj.2.2 hh)
              have hcj : c < j := by
                rcases hcbaj.2.1 with h1 | h1
                · exact absurd h1 hc0
                · exact h1
              have hjc : j ≠ c := by omega
              have hdj : d j = d c + 1 :=
                hdep.2.2 c (List.mem_range.mpr hclt) (k, j) hej hj0
              have h0lite : ∀ f, failAt t 0 = some f → f = 0 :=
                fun f hf => (hcore.1 f hf).1
              have hds0 : d s0 < d c := hcore.2.1 c s0 hc0 hs0
              have hdesc : d s ≤ d s0 := failWalk_descent h0lite hcore.2.1 fuel s0 s hw
              have hslt : s < t.nodes.length := lt_of_nodeAt_some hns
              have hdsc : d s < d c := lt_of_le_of_lt hdesc hds0
              have hsc : s ≠ c := fun hh => absurd (hh ▸ hdsc) (lt_irrefl _)
              have hwfacts : d w < d j ∧ w < t.nodes.length ∧
                  (KeysCovered t →
                    (∀ x2, x2 ≠ c → (failAt t x2).isSome →
                      (∀ e2 ∈ childrenOf t x2, (failAt t e2.2).isSome) ∨
                        x2 ∈ qacc ++ (j :: R2.map Prod.snd)) →
                    (∀ x2 f2, failAt t x2 = some f2 → f2 = 0 ∨ (failAt t f2).isSome ∨
                      ∃ c2 ∈ qacc ++ (j :: R2.map Prod.snd),
                        Relation.ReflTransGen (childStep t) c2 f2) →
                    RootCoveredSet t →
                    w = 0 ∨ (failAt t w).isSome ∨
                      ∃ c2 ∈ qacc ++ (j :: R2.map Prod.snd),
                        Relation.ReflTransGen (childStep t) c2 w) := by
                cases hcw : childFor st node.keyitem with
                | none =>
                  have hw0 : w = 0 := by rw [hwdef, hcw]; rfl
                  rw [hw0]
                  refine ⟨by rw [hdep.1]; omega, hroot, ?_⟩
                  intro _ _ _ _
                  exact Or.inl rfl
                | some f =>
                  have hwf : w = f := by rw [hwdef, hcw]; rfl
                  cases hkEq : node.keyitem with
                  | none =>
                    rw [hkEq] at hcw
                    exact absurd hcw (by simp [childFor])
                  | some kk =>
                    rw [hkEq] at hcw
                    have hlk : lookupChild st.children kk = some f := hcw
                    have hmemf : (kk, f) ∈ childrenOf t s := by
                      rw [childrenOf_eq_of_nodeAt hns]
                      exact lookupChild_mem hlk
                    have hcbaf := hcba s (kk, f) hmemf
                    have hflt : f < t.nodes.length := hcbaf.1
                    have hdwlt : d f < d j := by
                      by_cases hf0 : f = 0
                      · rw [hf0, hdep.1]
                        omega
                      · have : d f = d s + 1 :=
                          hdep.2.2 s (List.mem_range.mpr hslt) (kk, f) hmemf hf0
                        omega
                    rw [hwf]
                    refine ⟨hdwlt, hflt, ?_⟩
                    intro hcov hv hvi hvii
                    by_cases hs0eq : s = 0
                    · subst hs0eq
                      have hkeyj : keyAt t j = some kk := by
                        rw [keyAt_eq_of_nodeAt hnj]
                        exact hkEq
                      rcases hcov j (List.mem_range.mpr hjlt) hj0 with ⟨i2, hi2, hkeq⟩
                      have hkk : kk = t.content i2 := by
                        rw [hkeyj] at hkeq
                        injection hkeq
                      have hlk0 : lookupChild (childrenOf t 0) (t.content i2) = some f := by
                        rw [childrenOf_eq_of_nodeAt hns, ← hkk]
                        exact hlk
                      rcases hvii i2 (List.mem_range.mp hi2) f hlk0 with hfz | hfset
                      · exact Or.inl hfz
                      · exact Or.inr (Or.inl hfset)
                    · have hys : ∃ y, failAt t y = some s := by
                        rcases failWalk_source fuel s0 s hw with rfl | hex
                        · exact ⟨c, hs0⟩
                        · exact hex
                      cases hfs : failAt t s with
                      | some z =>
                        rcases hv s hsc (by rw [hfs]; rfl) with hchs | hmemQ
                        · exact Or.inr (Or.inl (hchs (kk, f) hmemf))
                        · refine Or.inr (Or.inr ⟨s, hmemQ, ?_⟩)
                          exact Relation.ReflTransGen.single ⟨kk, hmemf⟩
                      | none =>
                        obtain ⟨y, hy⟩ := hys
                        rcases hvi y s hy with rfl | hset | ⟨c2, hc2, hrtg⟩
                        · exact absurd rfl hs0eq
                        · rw [hfs] at hset
                          simp at hset
                        · refine Or.inr (Or.inr ⟨c2, hc2, ?_⟩)
                          exact Relation.ReflTransGen.tail hrtg ⟨kk, hmemf⟩
              have hst1 : StaticEq t (updateNode t j (fun nd => { nd with fail := some w })) :=
                ⟨length_updateNode t j _, itemsRange_updateNode t j _, content_updateNode t j _,
                 fun x => updateNode_children_of t j x (fun _ => rfl),
                 fun x => updateNode_key_of t j x (fun _ => rfl),
                 fun x => updateNode_value_of t j x (fun _ => rfl),
                 fun x => updateNode_isSome t j _ x⟩
              have hm1 : ∀ x, (failAt t x).isSome →
                  (failAt (updateNode t j (fun nd => { nd with fail := some w })) x).isSome :=
                fun x hx => updFail_mono t j w x hx
              have hf01 : failAt (updateNode t j (fun nd => { nd with fail := some w })) 0 =
                  failAt t 0 := updFail_other t hj0 w
              have hfj1 : failAt (updateNode t j (fun nd => { nd with fail := some w })) j =
                  some w := updFail_self hjlt w
              have hfoth : ∀ x, j ≠ x →
                  failAt (updateNode t j (fun nd => { nd with fail := some w })) x =
                    failAt t x := fun x hx => updFail_other t hx w
              have hcore1 : AutoCore (updateNode t j (fun nd => { nd with fail := some w })) d
                  (qacc ++ [j]) := by
                refine ⟨?_, ?_, ?_, ?_⟩
                · intro f hf
                  rw [hf01] at hf
                  rcases hcore.1 f hf with ⟨hfz, hq, kk2, hentry⟩
                  refine ⟨hfz, List.mem_append_left [j] hq, kk2, ?_⟩
                  rw [hst1.2.2.2.1 0]
                  exact hentry
                · intro x f hx0 hf
                  by_cases hjx : j = x
                  · subst hjx
                    rw [hfj1] at hf
                    injection hf with hf2
                    rw [← hf2]
                    exact hwfacts.1
                  · rw [hfoth x hjx] at hf
                    exact hcore.2.1 x f hx0 hf
                · intro x f hf
                  rw [hst1.1]
                  by_cases hjx : j = x
                  · subst hjx
                    rw [hfj1] at hf
                    injection hf with hf2
                    rw [← hf2]
                    exact hwfacts.2.1
                  · rw [hfoth x hjx] at hf
                    exact hcore.2.2.1 x f hf
                · intro x hx
                  rcases List.mem_append.mp hx with hxq | hxj
                  · exact hm1 x (hcore.2.2.2 x hxq)
                  · have : x = j := by simpa using hxj
                    subst this
                    rw [hfj1]
                    rfl
              have hextArg : KeysCovered (updateNode t j (fun nd =>
                  { nd with fail := some w })) →
                  (∀ x, x ≠ c → (failAt (updateNode t j
                      (fun nd => { nd with fail := some w })) x).isSome →
                    (∀ e2 ∈ childrenOf (updateNode t j (fun nd =>
                      { nd with fail := some w })) x,
                      (failAt (updateNode t j (fun nd =>
                        { nd with fail := some w })) e2.2).isSome) ∨
                      x ∈ (qacc ++ [j]) ++ R2.map Prod.snd) ∧
                  (∀ e2 ∈ childrenOf (updateNode t j (fun nd =>
                      { nd with fail := some w })) c,
                    e2 ∈ R2 ∨ (failAt (updateNode t j (fun nd =>
                      { nd with fail := some w })) e2.2).isSome) ∧
                  (∀ x f, failAt (updateNode t j (fun nd =>
                      { nd with fail := some w })) x = some f →
                    f = 0 ∨ (failAt (updateNode t j (fun nd =>
                      { nd with fail := some w })) f).isSome ∨
                    ∃ c2 ∈ (qacc ++ [j]) ++ R2.map Prod.snd,
                      Relation.ReflTransGen (childStep (updateNode t j (fun nd =>
                        { nd with fail := some w }))) c2 f) ∧
                  RootCoveredSet (updateNode t j (fun nd =>
                    { nd with fail := some w })) := by
                intro hcov1
                have hcov : KeysCovered t := KeysCovered_transfer hst1.symm hcov1
                obtain ⟨hv, hvcc, hvi, hvii⟩ := hext hcov
                have hvj : ∀ x2, x2 ≠ c → (failAt t x2).isSome →
                    (∀ e2 ∈ childrenOf t x2, (failAt t e2.2).isSome) ∨
                      x2 ∈ qacc ++ (j :: R2.map Prod.snd) := by
                  intro x2 hx2 hset
                  rcases hv x2 hx2 hset with hl | hr
                  · exact Or.inl hl
                  · right
                    simpa using hr
                have hvij : ∀ x2 f2, failAt t x2 = some f2 → f2 = 0 ∨
                    (failAt t f2).isSome ∨ ∃ c2 ∈ qacc ++ (j :: R2.map Prod.snd),
                      Relation.ReflTransGen (childStep t) c2 f2 := by
                  intro x2 f2 hf2
                  rcases hvi x2 f2 hf2 with hl | hm | ⟨c2, hc2, hrtg⟩
                  · exact Or.inl hl
                  · exact Or.inr (Or.inl hm)
                  · refine Or.inr (Or.inr ⟨c2, ?_, hrtg⟩)
                    simpa using hc2
                refine ⟨?_, ?_, ?_, ?_⟩
                · intro x hxc hxset
                  by_cases hjx : j = x
                  · subst hjx
                    right
                    rw [append_cons_assoc]
                    exact List.mem_append_right _ (List.mem_cons_self _ _)
                  · rw [hfoth x hjx] at hxset
                    rcases hvj x hxc hxset with hl | hr
                    · left
                      intro e2 he2
                      rw [hst1.2.2.2.1 x] at he2
                      exact hm1 e2.2 (hl e2 he2)
                    · right
                      rw [append_cons_assoc]
                      exact hr
                · intro e2 he2
                  rw [hst1.2.2.2.1 c] at he2
                  rcases hvcc e2 he2 with hmem | hset
                  · rcases List.mem_cons.mp hmem with heq | hmem2
                    · right
                      rw [heq]
                      simp only
                      rw [hfj1]
                      rfl
                    · exact Or.inl hmem2
                  · exact Or.inr (hm1 e2.2 hset)
                · intro x f hxf
                  by_cases hjx : j = x
                  · subst hjx
                    rw [hfj1] at hxf
                    injection hxf with hxf2
                    rcases hwfacts.2.2 hcov hvj hvij hvii with hl | hm | ⟨c2, hc2, hrtg⟩
                    · rw [← hxf2]
                      exact Or.inl hl
                    · rw [← hxf2]
                      exact Or.inr (Or.inl (hm1 w hm))
                    · refine Or.inr (Or.inr ⟨c2, ?_, ?_⟩)
                      · rw [append_cons_assoc]
                        exact hc2
                      · rw [← hxf2]
                        exact reflTransGen_childStep_transfer (hst1.2.2.2.1) hrtg
                  · rw [hfoth x hjx] at hxf
                    rcases hvij x f hxf with hl | hm | ⟨c2, hc2, hrtg⟩
                    · exact Or.inl hl
                    · exact Or.inr (Or.inl (hm1 f hm))
                    · refine Or.inr (Or.inr ⟨c2, ?_, ?_⟩)
                      · rw [append_cons_assoc]
                        exact hc2
                      · exact reflTransGen_childStep_transfer (hst1.2.2.2.1) hrtg
                · intro i2 hi2 f hf
                  rw [hst1.2.1] at hi2
                  rw [hst1.2.2.2.1 0, hst1.2.2.1] at hf
                  rcases hvii i2 hi2 f hf with hl | hset
                  · exact Or.inl hl
                  · exact Or.inr (hm1 f hset)
              obtain ⟨hst2, hm2, hf02, hq2, htgt2, hcore2, hext2⟩ :=
                ih (updateNode t j (fun nd => { nd with fail := some w }))
                  (qacc ++ [j]) fuel t2 q2 h
                  (by rw [hst1.1]; exact hroot)
                  (CBA_transfer hst1 hcba)
                  (Depths_transfer hst1 hdep)
                  (by rw [hst1.2.2.2.2.1 0]; exact hkey0)
                  (by
                    intro e2 he2
                    rw [hst1.2.2.2.1 c]
                    exact hR e2 (List.mem_cons_of_mem _ he2))
                  (by rw [hst1.1]; exact hclt)
                  hcore1 hextArg
              refine ⟨staticEq_trans hst1 hst2, fun x hx => hm2 x (hm1 x hx),
                by rw [hf02, hf01], ?_, ?_, hcore2, ?_⟩
              · rw [hq2, append_cons_assoc]
                rfl
              · intro e2 he2
                rcases List.mem_cons.mp he2 with heq | hmem2
                · rw [heq]
                  simp only
                  apply hm2
                  rw [hfj1]
                  rfl
                · exact htgt2 e2 hmem2
              · intro hcov
                exact hext2 (KeysCovered_transfer hst1 hcov)

/-- An empty queue ends the breadth-first loop at once. -/
theorem bfsLoop_nil (t : Trie α β) (fuel : Nat) : bfsLoop t fuel [] = some t := by
  cases fuel <;> rfl

/-- What the whole breadth-first loop of make_automaton step 2 establishes
when it returns: statics untouched, fails only grow, the root fail untouched,
set fail links decrease depth and stay in range, and under the universe
precondition the final trie is fail-closed under children, has good fail
targets, and keeps the root transitions good. -/
theorem bfsLoop_spec {d : Nat → Nat} :
    ∀ (fuel : Nat) (Q : List Nat) (t t2 : Trie α β),
      bfsLoop t fuel Q = some t2 →
      0 < t.nodes.length → CBA t → Depths t d → keyAt t 0 = none →
      AutoCore t d Q → (KeysCovered t → AutoExt t Q) →
      StaticEq t t2 ∧ (∀ x, (failAt t x).isSome → (failAt t2 x).isSome) ∧
      failAt t2 0 = failAt t 0 ∧ (0 : Nat) ∉ Q ∧
      (∀ j f, j ≠ 0 → failAt t2 j = some f → d f < d j) ∧
      (∀ j f, failAt t2 j = some f → f < t2.nodes.length) ∧
      (KeysCovered t →
        (∀ j, (failAt t2 j).isSome → ∀ e ∈ childrenOf t2 j, (failAt t2 e.2).isSome) ∧
        (∀ j f, failAt t2 j = some f → f = 0 ∨ (failAt t2 f).isSome) ∧
        RootCoveredSet t2) := by
  intro fuel
  induction fuel with
  | zero =>
    intro Q t t2 h hroot hcba hdep hkey0 hcore hext
    cases Q with
    | nil =>
      have ht2 : t = t2 := by
        rw [bfsLoop_nil] at h
        exact Option.some.inj h
      subst ht2
      refine ⟨staticEq_refl t, fun x hx => hx, rfl, by simp, hcore.2.1, hcore.2.2.1, ?_⟩
      intro hcov
      obtain ⟨he, hf, hg⟩ := hext hcov
      refine ⟨?_, ?_, hg⟩
      · intro j hj e2 he2
        rcases he j hj with hl | hr
        · exact hl e2 he2
        · simp at hr
      · intro j f hf2
        rcases hf j f hf2 with hl | hm | ⟨c2, hc2, _⟩
        · exact Or.inl hl
        · exact Or.inr hm
        · simp at hc2
    | cons c queue => simp [bfsLoop] at h
  | succ fuel ih =>
    intro Q t t2 h hroot hcba hdep hkey0 hcore hext
    cases Q with
    | nil =>
      have ht2 : t = t2 := by
        rw [bfsLoop_nil] at h
        exact Option.some.inj h
      subst ht2
      refine ⟨staticEq_refl t, fun x hx => hx, rfl, by simp, hcore.2.1, hcore.2.2.1, ?_⟩
      intro hcov
      obtain ⟨he, hf, hg⟩ := hext hcov
      refine ⟨?_, ?_, hg⟩
      · intro j hj e2 he2
        rcases he j hj with hl | hr
        · exact hl e2 he2
        · simp at hr
      · intro j f hf2
        rcases hf j f hf2 with hl | hm | ⟨c2, hc2, _⟩
        · exact Or.inl hl
        · exact Or.inr hm
        · simp at hc2
    | cons c queue =>
      cases hn : nodeAt t c with
      | none => simp [bfsLoop, hn] at h
      | some current =>
        simp only [bfsLoop, hn] at h
        cases hpc : processChildren t c current.children queue fuel with
        | none => rw [hpc] at h; simp at h
        | some p =>
          rw [hpc] at h
          by_cases hc0 : c = 0
          · subst hc0
            have hset0 : (failAt t 0).isSome :=
              hcore.2.2.2 0 (List.mem_cons_self _ _)
            obtain ⟨f0, hf0⟩ := Option.isSome_iff_exists.mp hset0
            obtain ⟨hfz, _, kk, hkk⟩ := hcore.1 f0 hf0
            subst hfz
            have hkk2 : ∃ kk2, (kk2, (0 : Nat)) ∈ current.children := by
              rw [childrenOf_eq_of_nodeAt hn] at hkk
              exact ⟨kk, hkk⟩
            have hzero := processChildren_zero_none current.children t queue fuel
              hkey0 hf0 hkk2
            rw [hzero] at hpc
            exact absurd hpc (by simp)
          · have hclt : c < t.nodes.length := lt_of_nodeAt_some hn
            have hchEq : childrenOf t c = current.children := childrenOf_eq_of_nodeAt hn
            have hcoreQ : AutoCore t d queue := by
              refine ⟨?_, hcore.2.1, hcore.2.2.1, ?_⟩
              · intro f hf
                obtain ⟨hfz, hmem, hkk⟩ := hcore.1 f hf
                refine ⟨hfz, ?_, hkk⟩
                rcases List.mem_cons.mp hmem with heq | hm
                · exact absurd heq.symm hc0
                · exact hm
              · intro c2 hc2
                exact hcore.2.2.2 c2 (List.mem_cons_of_mem _ hc2)
            have hextMid : KeysCovered t →
                (∀ x, x ≠ c → (failAt t x).isSome →
                  (∀ e ∈ childrenOf t x, (failAt t e.2).isSome) ∨
                    x ∈ queue ++ current.children.map Prod.snd) ∧
                (∀ e ∈ childrenOf t c, e ∈ current.children ∨ (failAt t e.2).isSome) ∧
                (∀ x f, failAt t x = some f → f = 0 ∨ (failAt t f).isSome ∨
                  ∃ c2 ∈ queue ++ current.children.map Prod.snd,
                    Relation.ReflTransGen (childStep t) c2 f) ∧
                RootCoveredSet t := by
              intro hcov
              obtain ⟨he, hf, hg⟩ := hext hcov
              refine ⟨?_, ?_, ?_, hg⟩
              · intro x hxc hxset
                rcases he x hxset with hl | hr
                · exact Or.inl hl
                · rcases List.mem_cons.mp hr with heq | hm
                  · exact absurd heq hxc
                  · exact Or.inr (List.mem_append_left _ hm)
              · intro e2 he2
                rw [hchEq] at he2
                exact Or.inl he2
              · intro x f hxf
                rcases hf x f hxf with hl | hm | ⟨c2, hc2m, hrtg⟩
                · exact Or.inl hl
                · exact Or.inr (Or.inl hm)
                · rcases List.mem_cons.mp hc2m with heq | hm2
                  · subst heq
                    rcases Relation.ReflTransGen.cases_head hrtg with heq2 | hstep
                    · right
                      left
                      rw [← heq2]
                      exact hcore.2.2.2 c2 (List.mem_cons_self _ _)
                    · obtain ⟨b, ⟨kk, hkkm⟩, hrtg2⟩ := hstep
                      refine Or.inr (Or.inr ⟨b, ?_, hrtg2⟩)
                      apply List.mem_append_right
                      rw [hchEq] at hkkm
                      exact List.mem_map.mpr ⟨(kk, b), hkkm, rfl⟩
                  · exact Or.inr (Or.inr ⟨c2, List.mem_append_left _ hm2, hrtg⟩)
            obtain ⟨hst1, hm1, hf01, hq2, htgt1, hcore1, hext1⟩ :=
              processChildren_spec hc0 current.children t queue fuel p.1 p.2 hpc
                hroot hcba hdep hkey0
                (by intro e2 he2; rw [hchEq]; exact he2)
                hclt hcoreQ hextMid
            obtain ⟨hst2, hm2, hf02, h0q2, hdec2, hrng2, hfin2⟩ :=
              ih p.2 p.1 t2 h (by rw [hst1.1]; exact hroot) (CBA_transfer hst1 hcba)
                (Depths_transfer hst1 hdep)
                (by rw [hst1.2.2.2.2.1 0]; exact hkey0)
                hcore1 (fun hcovp => hext1 (KeysCovered_transfer hst1.symm hcovp))
            refine ⟨staticEq_trans hst1 hst2, fun x hx => hm2 x (hm1 x hx),
              by rw [hf02, hf01], ?_, hdec2, hrng2, ?_⟩
            · intro hmem
              rcases List.mem_cons.mp hmem with heq | hm
              · exact hc0 heq.symm
              · exact h0q2 (hq2 ▸ List.mem_append_left _ hm)
            · intro hcov
              exact hfin2 (KeysCovered_transfer hst1 hcov)

/-- After step 1 the edge shape CBA holds: the new root self-transitions
target the root, everything else is a forward edge of the original trie. -/
theorem step1_CBA {t tc : Trie α β} {qc : List Nat} (hw : WfTrie t)
    (hinv : Step1Inv t tc qc) : CBA tc := by
  intro m e he
  by_cases hm : m = 0
  · subst hm
    rcases hinv.root_sub e he with hmem | hz
    · have hcb := hw.cb 0 e hmem
      refine ⟨by rw [hinv.len_eq]; exact hcb.2, Or.inl rfl, fun _ => rfl⟩
    · refine ⟨by rw [hinv.len_eq, hz]; exact hw.root_pos, Or.inl rfl, fun _ => rfl⟩
  · rw [hinv.ch_eq m hm] at he
    have hcb := hw.cb m e he
    refine ⟨by rw [hinv.len_eq]; exact hcb.2, Or.inr hcb.1, fun h0 => ?_⟩
    rw [h0] at hcb
    omega

/-- A depth assignment of the trie still works after step 1: the only new
edges are root self-transitions, exempted by the target 0 guard. -/
theorem step1_Depths {t tc : Trie α β} {qc : List Nat} {d : Nat → Nat}
    (hdep : Depths t d) (hinv : Step1Inv t tc qc) : Depths tc d := by
  refine ⟨hdep.1, ?_, ?_⟩
  · intro j hj
    rw [hinv.len_eq] at hj
    exact hdep.2.1 j hj
  · intro i hi e he hez
    rw [hinv.len_eq] at hi
    by_cases hi0 : i = 0
    · subst hi0
      rcases hinv.root_sub e he with hmem | hz
      · exact hdep.2.2 0 hi e hmem hez
      · exact absurd hz hez
    · rw [hinv.ch_eq i hi0] at he
      exact hdep.2.2 i hi e he hez

/-- After step 1 the core breadth-first invariant holds for the produced
queue. -/
theorem step1_core {t tc : Trie α β} {qc : List Nat} {d : Nat → Nat}
    (hw : WfTrie t) (hdep : Depths t d) (hinv : Step1Inv t tc qc) :
    AutoCore tc d qc := by
  have hqdepth : ∀ j, j ≠ 0 → j ∈ qc → d j = 1 := by
    intro j hj0 hjq
    obtain ⟨_, e, he, hej⟩ := hinv.queued j hjq
    have hmem : e ∈ childrenOf t 0 := by
      rcases hinv.root_sub e he with hmem | hz
      · exact hmem
      · rw [hz] at hej
        exact absurd hej.symm hj0
    have := hdep.2.2 0 (List.mem_range.mpr hw.root_pos) e hmem (by rw [hej]; exact hj0)
    rw [hej] at this
    rw [this, hdep.1]
  refine ⟨?_, ?_, ?_, ?_⟩
  · intro f hf
    have hfz : f = 0 := hinv.fail_zero 0 f hf
    have hq : (0 : Nat) ∈ qc := hinv.set_queued 0 (by rw [hf]; rfl)
    obtain ⟨_, e, he, hej⟩ := hinv.queued 0 hq
    obtain ⟨a, b⟩ := e
    have hb : b = 0 := hej
    subst hb
    exact ⟨hfz, hq, a, he⟩
  · intro j f hj0 hf
    have hfz : f = 0 := hinv.fail_zero j f hf
    have hq : j ∈ qc := hinv.set_queued j (by rw [hf]; rfl)
    rw [hfz, hdep.1, hqdepth j hj0 hq]
    omega
  · intro j f hf
    rw [hinv.fail_zero j f hf, hinv.len_eq]
    exact hw.root_pos
  · intro c hc
    exact (hinv.queued c hc).1

/-- After step 1 the extended breadth-first invariant holds: every node with
a set fail link is queued, and every set fail link points to the root. -/
theorem step1_ext {t tc : Trie α β} {qc : List Nat}
    (hinv : Step1Inv t tc qc) (hrc : RootCoveredSet tc) : AutoExt tc qc := by
  refine ⟨?_, ?_, hrc⟩
  · intro j hj
    exact Or.inr (hinv.set_queued j hj)
  · intro j f hf
    exact Or.inl (hinv.fail_zero j f hf)

/-- The master specification of Trie.make_automaton on any successful run:
statics preserved away from the root, the root gains exactly self-transitions
for uncovered items, the root fail stays NIL, set fail links decrease depth
and stay in range, the root is total over the declared universe, and under
the universe precondition fail links are closed under children, fail targets
are good, and covered root transitions are good. -/
theorem make_automaton_spec {d : Nat → Nat} (t t' : Trie α β) (fuel : Nat)
    (hw : WfTrie t) (hdep : Depths t d)
    (hma : make_automaton t fuel = some t') :
    t'.nodes.length = t.nodes.length ∧
    t'.items_range = t.items_range ∧
    t'.content = t.content ∧
    (∀ x, keyAt t' x = keyAt t x) ∧
    (∀ x, valueAt t' x = valueAt t x) ∧
    (∀ x, x ≠ 0 → childrenOf t' x = childrenOf t x) ∧
    (∀ a b, lookupChild (childrenOf t 0) a = some b →
      lookupChild (childrenOf t' 0) a = some b) ∧
    (∀ e ∈ childrenOf t' 0, e ∈ childrenOf t 0 ∨ e.2 = 0) ∧
    failAt t' 0 = none ∧
    (∀ j f, j ≠ 0 → failAt t' j = some f → d f < d j) ∧
    (∀ j f, failAt t' j = some f → f < t.nodes.length) ∧
    (∀ i, i < t.items_range → (lookupChild (childrenOf t' 0) (t.content i)).isSome) ∧
    CBA t' ∧ Depths t' d ∧
    (KeysCovered t →
      (∀ j, (failAt t' j).isSome → ∀ e ∈ childrenOf t' j, (failAt t' e.2).isSome) ∧
      (∀ j f, failAt t' j = some f → f = 0 ∨ (failAt t' f).isSome) ∧
      (∀ i, i < t.items_range → ∀ f,
        lookupChild (childrenOf t' 0) (t.content i) = some f →
          f = 0 ∨ (failAt t' f).isSome)) := by
  obtain ⟨hinv, hcovR⟩ := step1_spec t hw
  have hcba1 : CBA (step1 t).1 := step1_CBA hw hinv
  have hdep1 : Depths (step1 t).1 d := step1_Depths hdep hinv
  have hcore1 : AutoCore (step1 t).1 d (step1 t).2 := step1_core hw hdep hinv
  have hrc1 : RootCoveredSet (step1 t).1 := by
    intro i hi f hf
    rw [hinv.range_eq] at hi
    rw [hinv.content_eq] at hf
    exact (hcovR i hi).2 f hf
  have hext1 : KeysCovered (step1 t).1 → AutoExt (step1 t).1 (step1 t).2 :=
    fun _ => step1_ext hinv hrc1
  have hbfs : bfsLoop (step1 t).1 fuel (step1 t).2 = some t' := hma
  obtain ⟨hst, hm, hf0, h0q, hdec, hrng, hfin⟩ :=
    bfsLoop_spec fuel (step1 t).2 (step1 t).1 t' hbfs
      (by rw [hinv.len_eq]; exact hw.root_pos) hcba1 hdep1
      (by rw [hinv.key_eq 0]; exact hw.key0) hcore1 hext1
  have hlen : t'.nodes.length = t.nodes.length := hst.1.trans hinv.len_eq
  have hf1none : failAt (step1 t).1 0 = none := by
    cases hx : failAt (step1 t).1 0 with
    | none => rfl
    | some f =>
      have hq : (0 : Nat) ∈ (step1 t).2 := hinv.set_queued 0 (by rw [hx]; rfl)
      exact absurd hq h0q
  refine ⟨hlen, hst.2.1.trans hinv.range_eq, hst.2.2.1.trans hinv.content_eq,
    fun x => (hst.2.2.2.2.1 x).trans (hinv.key_eq x),
    fun x => (hst.2.2.2.2.2.1 x).trans (hinv.value_eq x),
    fun x hx => (hst.2.2.2.1 x).trans (hinv.ch_eq x hx),
    ?_, ?_, by rw [hf0]; exact hf1none, hdec, ?_, ?_,
    CBA_transfer hst hcba1, Depths_transfer hst hdep1, ?_⟩
  · intro a b hab
    rw [hst.2.2.2.1 0]
    exact hinv.root_lookup a b hab
  · intro e he
    rw [hst.2.2.2.1 0] at he
    exact hinv.root_sub e he
  · intro j f hf
    have := hrng j f hf
    rw [hlen] at this
    exact this
  · intro i hi
    rw [hst.2.2.2.1 0]
    exact (hcovR i hi).1
  · intro hcov
    have hcov1 : KeysCovered (step1 t).1 := by
      intro j hj hj0
      rw [hinv.len_eq] at hj
      rcases hcov j hj hj0 with ⟨i, hi, hkey⟩
      refine ⟨i, ?_, ?_⟩
      · rw [hinv.range_eq]
        exact hi
      · rw [hinv.key_eq j, hinv.content_eq]
        exact hkey
    obtain ⟨he, hfgood, hrcs⟩ := hfin hcov1
    refine ⟨he, hfgood, ?_⟩
    intro i hi f hf
    refine hrcs i ?_ f ?_
    · rw [hst.2.1.trans hinv.range_eq]
      exact hi
    · rw [hst.2.2.1.trans hinv.content_eq]
      exact hf

/-- Collecting along a NIL chain head yields the empty list at any fuel. -/
theorem collectValues_none (t : Trie α β) (fuel : Nat) :
    collectValues t fuel none = some [] := by
  cases fuel <;> rfl

/-- The value collection walk of search terminates from any in-range state
when set fail links decrease depth, stay in range and the root fail is NIL;
when the start node holds a value, that value heads the collected list. -/
theorem collect_total {tc : Trie α β} {d : Nat → Nat}
    (hdec : ∀ j f, j ≠ 0 → failAt tc j = some f → d f < d j)
    (hrng : ∀ j f, failAt tc j = some f → f < tc.nodes.length)
    (hf0 : failAt tc 0 = none) :
    ∀ (fuel j : Nat), j < tc.nodes.length → d j < fuel →
      ∃ vs, collectValues tc fuel (some j) = some vs ∧
        (∀ v, valueAt tc j = some v → ∃ vs2, vs = v :: vs2) := by
  intro fuel
  induction fuel with
  | zero => intro j _ hd; omega
  | succ fuel ih =>
    intro j hj hd
    obtain ⟨n, hn⟩ := nodeAt_some_of_lt hj
    have hrec : ∃ vs0, collectValues tc fuel n.fail = some vs0 := by
      cases hnf : n.fail with
      | none => exact ⟨[], collectValues_none tc fuel⟩
      | some f =>
        have hfj : failAt tc j = some f := by
          rw [failAt_eq_of_nodeAt hn]
          exact hnf
        have hj0 : j ≠ 0 := by
          intro hz
          rw [hz, hf0] at hfj
          exact absurd hfj (by simp)
        obtain ⟨vs0, hvs0, _⟩ := ih f (hrng j f hfj) (by have := hdec j f hj0 hfj; omega)
        exact ⟨vs0, hvs0⟩
    obtain ⟨vs0, hvs0⟩ := hrec
    cases hv : n.value with
    | none =>
      refine ⟨vs0, ?_, ?_⟩
      · simp only [collectValues, hn, hvs0, hv]
      · intro v hval
        rw [valueAt_eq_of_nodeAt hn, hv] at hval
        exact absurd hval (by simp)
    | some v0 =>
      refine ⟨v0 :: vs0, ?_, ?_⟩
      · simp only [collectValues, hn, hvs0, hv]
      · intro v hval
        rw [valueAt_eq_of_nodeAt hn, hv] at hval
        injection hval with hval2
        rw [hval2]
        exact ⟨vs0, rfl⟩

/-- The fail chain walk of search terminates from any good in-range state
for an item the root has a transition for, exiting at a good in-range
state. -/
theorem failWalk_total {tc : Trie α β} {d : Nat → Nat} {k : α}
    (hrootchild : (lookupChild (childrenOf tc 0) k).isSome)
    (hdec : ∀ j f, j ≠ 0 → failAt tc j = some f → d f < d j)
    (hrng : ∀ j f, failAt tc j = some f → f < tc.nodes.length)
    (hgood : ∀ j f, failAt tc j = some f → f = 0 ∨ (failAt tc f).isSome) :
    ∀ (fuel s : Nat), s < tc.nodes.length → (s = 0 ∨ (failAt tc s).isSome) →
      d s < fuel →
      ∃ s2, failWalk tc (some k) fuel s = some s2 ∧ s2 < tc.nodes.length ∧
        (s2 = 0 ∨ (failAt tc s2).isSome) := by
  intro fuel
  induction fuel with
  | zero => intro s _ _ hd; omega
  | succ fuel ih =>
    intro s hs hgs hd
    obtain ⟨st, hn⟩ := nodeAt_some_of_lt hs
    cases hl : lookupChild st.children k with
    | some nx =>
      refine ⟨s, ?_, hs, hgs⟩
      simp [failWalk, hn, childFor, hl]
    | none =>
      have hs0 : s ≠ 0 := by
        intro hz
        subst hz
        rw [childrenOf_eq_of_nodeAt hn, hl] at hrootchild
        exact absurd hrootchild (by simp)
      have hset : (failAt tc s).isSome := by
        rcases hgs with hz | hset
        · exact absurd hz hs0
        · exact hset
      obtain ⟨f, hf⟩ := Option.isSome_iff_exists.mp hset
      have hnf : st.fail = some f := by
        rw [failAt_eq_of_nodeAt hn] at hf
        exact hf
      obtain ⟨s2, hw2, hs2, hg2⟩ := ih f (hrng s f hf)
        (by
          rcases hgood s f hf with hz | hst
          · exact Or.inl hz
          · exact Or.inr hst)
        (by have := hdec s f hs0 hf; omega)
      refine ⟨s2, ?_, hs2, hg2⟩
      simp only [failWalk, hn, childFor, hl, hnf]
      exact hw2

/-- The empty input ends the search loop at once. -/
theorem searchLoop_nil (t : Trie α β) (fuel sp idx : Nat) :
    searchLoop t fuel sp [] idx = some [] := by
  rfl

/-- One step of the search loop on a non-empty input. -/
theorem searchLoop_cons (t : Trie α β) (fuel sp idx : Nat) (k : α) (rest : List α) :
    searchLoop t fuel sp (k :: rest) idx =
      match searchStep t fuel sp k with
      | none => none
      | some p =>
        match searchLoop t fuel p.1 rest (idx + 1) with
        | none => none
        | some out => some (if p.2.isEmpty then out else (idx, p.2) :: out) := by
  rfl

/-- Following a stored path: when the current state has the next item as a
child in the original trie, search moves exactly along that edge in the
compiled trie, and at the end of the path it emits an entry headed by the
value stored there. -/
theorem searchLoop_follow {t t' : Trie α β} {d : Nat → Nat} {fuel : Nat}
    (hw : WfTrie t)
    (hlen : t'.nodes.length = t.nodes.length)
    (hval : ∀ x, valueAt t' x = valueAt t x)
    (hlk : ∀ x a b, lookupChild (childrenOf t x) a = some b →
      lookupChild (childrenOf t' x) a = some b)
    (hdec : ∀ j f, j ≠ 0 → failAt t' j = some f → d f < d j)
    (hrng : ∀ j f, failAt t' j = some f → f < t'.nodes.length)
    (hf0 : failAt t' 0 = none)
    (hfuel : ∀ x, x < t.nodes.length → d x < fuel) :
    ∀ (rest : List α) (sp idx qend : Nat) (v : β),
      sp < t.nodes.length →
      getNodeFrom t sp rest = some qend →
      valueAt t qend = some v →
      rest ≠ [] →
      ∃ out vs, searchLoop t' fuel sp rest idx = some out ∧
        (idx + rest.length - 1, vs) ∈ out ∧ vs ≠ [] ∧ v ∈ vs := by
  cases fuel with
  | zero =>
    intro rest sp idx qend v hsp _ _ _
    exact absurd (hfuel sp hsp) (by omega)
  | succ fuel2 =>
    intro rest
    induction rest with
    | nil => intro sp idx qend v _ _ _ hne; exact absurd rfl hne
    | cons k rest2 ih =>
      intro sp idx qend v hsp hpath hv hne
      obtain ⟨n, hn⟩ := nodeAt_some_of_lt hsp
      simp only [getNodeFrom, hn] at hpath
      cases hl : lookupChild n.children k with
      | none => rw [hl] at hpath; exact absurd hpath (by simp)
      | some next =>
        rw [hl] at hpath
        have hlt : lookupChild (childrenOf t sp) k = some next := by
          rw [childrenOf_eq_of_nodeAt hn]
          exact hl
        have hnext : next < t.nodes.length :=
          (hw.cb sp (k, next) (by
            rw [childrenOf_eq_of_nodeAt hn]
            exact lookupChild_mem hl)).2
        have hlt2 : lookupChild (childrenOf t' sp) k = some next := hlk sp k next hlt
        obtain ⟨st, hn2⟩ := nodeAt_some_of_lt (show sp < t'.nodes.length by
          rw [hlen]; exact hsp)
        have hcl : lookupChild st.children k = some next := by
          rw [← childrenOf_eq_of_nodeAt hn2]
          exact hlt2
        have hwalk : failWalk t' (some k) (fuel2 + 1) sp = some sp := by
          simp [failWalk, hn2, childFor, hcl]
        obtain ⟨vs, hvs, hhead⟩ := collect_total hdec hrng hf0 (fuel2 + 1) next
          (show next < t'.nodes.length by rw [hlen]; exact hnext) (hfuel next hnext)
        have hstep : searchStep t' (fuel2 + 1) sp k = some (next, vs) := by
          simp only [searchStep, hwalk, hn2, hcl, Option.getD_some, hvs]
        cases rest2 with
        | nil =>
          have hq : next = qend := by
            simp only [getNodeFrom] at hpath
            exact Option.some.inj hpath
          subst hq
          obtain ⟨vs2, hvs2⟩ := hhead v (by rw [hval]; exact hv)
          subst hvs2
          refine ⟨[(idx, v :: vs2)], v :: vs2, ?_, by simp, by simp, by simp⟩
          rw [searchLoop_cons]
          simp only [hstep, searchLoop_nil]
          rfl
        | cons k2 rest3 =>
          obtain ⟨out2, vs2, hloop2, hmem2, hne2, hvin2⟩ :=
            ih next (idx + 1) qend v hnext hpath hv (by simp)
          have hidx : idx + 1 + (k2 :: rest3).length - 1 =
              idx + (k :: k2 :: rest3).length - 1 := by
            simp only [List.length_cons]
            omega
          rw [hidx] at hmem2
          by_cases hemp : vs.isEmpty
          · refine ⟨out2, vs2, ?_, hmem2, hne2, hvin2⟩
            rw [searchLoop_cons]
            simp only [hstep, hloop2]
            rw [if_pos hemp]
          · refine ⟨(idx, vs) :: out2, vs2, ?_, List.mem_cons_of_mem _ hmem2, hne2, hvin2⟩
            rw [searchLoop_cons]
            simp only [hstep, hloop2]
            rw [if_neg hemp]

/-- The search loop is total from any good in-range state on inputs whose
items all have root transitions with good targets. -/
theorem searchLoop_total {tc : Trie α β} {d : Nat → Nat} {fuel : Nat}
    (hcba : CBA tc)
    (hdec : ∀ j f, j ≠ 0 → failAt tc j = some f → d f < d j)
    (hrng : ∀ j f, failAt tc j = some f → f < tc.nodes.length)
    (hf0 : failAt tc 0 = none)
    (hclosed : ∀ j, (failAt tc j).isSome → ∀ e ∈ childrenOf tc j, (failAt tc e.2).isSome)
    (hgood : ∀ j f, failAt tc j = some f → f = 0 ∨ (failAt tc f).isSome)
    (hfuel : ∀ x, x < tc.nodes.length → d x < fuel) :
    ∀ (seq : List α) (sp idx : Nat),
      (∀ k ∈ seq, (lookupChild (childrenOf tc 0) k).isSome ∧
        (∀ f, lookupChild (childrenOf tc 0) k = some f →
          f = 0 ∨ (failAt tc f).isSome)) →
      sp < tc.nodes.length → (sp = 0 ∨ (failAt tc sp).isSome) →
      (searchLoop tc fuel sp seq idx).isSome := by
  intro seq
  induction seq with
  | nil => intro sp idx _ _ _; rw [searchLoop_nil]; rfl
  | cons k rest ih =>
    intro sp idx hseq hsp hgsp
    obtain ⟨s2, hwalk, hs2, hg2⟩ := failWalk_total (hseq k (List.mem_cons_self _ _)).1
      hdec hrng hgood fuel sp hsp hgsp (hfuel sp hsp)
    obtain ⟨st, hwexit, hchild⟩ := failWalk_exit fuel sp s2 hwalk
    obtain ⟨nx0, hnx0⟩ := Option.isSome_iff_exists.mp hchild
    have hcl : lookupChild st.children k = some nx0 := hnx0
    have hmem : (k, nx0) ∈ childrenOf tc s2 := by
      rw [childrenOf_eq_of_nodeAt hwexit]
      exact lookupChild_mem hcl
    have hnxlt : nx0 < tc.nodes.length := (hcba s2 (k, nx0) hmem).1
    have hgnx : nx0 = 0 ∨ (failAt tc nx0).isSome := by
      by_cases hs20 : s2 = 0
      · subst hs20
        refine (hseq k (List.mem_cons_self _ _)).2 nx0 ?_
        rw [childrenOf_eq_of_nodeAt hwexit]
        exact hcl
      · have hset : (failAt tc s2).isSome := by
          rcases hg2 with hz | hst
          · exact absurd hz hs20
          · exact hst
        exact Or.inr (hclosed s2 hset (k, nx0) hmem)
    obtain ⟨vs, hvs, _⟩ := collect_total hdec hrng hf0 fuel nx0 hnxlt (hfuel nx0 hnxlt)
    have hstep : searchStep tc fuel sp k = some (nx0, vs) := by
      simp only [searchStep, hwalk, hwexit, hcl, Option.getD_some, hvs]
    have hrec := ih nx0 (idx + 1) (fun k2 hk2 => hseq k2 (List.mem_cons_of_mem _ hk2))
      hnxlt hgnx
    obtain ⟨out2, hout2⟩ := Option.isSome_iff_exists.mp hrec
    rw [searchLoop_cons]
    simp only [hstep, hout2]
    rfl

/-- C1: for every non-empty sequence s inserted via add with value v (the
trie is well-formed and stores v at the node reached by s), after a
successful make_automaton run, search(s) yields an entry whose position is
the last index of s and whose value list is non-empty and contains v. -/
theorem C1_self_match (t t' : Trie α β) (d : Nat → Nat) (s : List α) (v : β) (fuel : Nat)
    (hw : WfTrie t) (hdep : Depths t d) (hs : s ≠ [])
    (hv : storedValue t s = some v)
    (hma : make_automaton t fuel = some t') :
    ∃ out vs, search t' (t.nodes.length + 1) s = some out ∧
      (s.length - 1, vs) ∈ out ∧ vs ≠ [] ∧ v ∈ vs := by
  obtain ⟨hlen, hrange, hcontent, hkey, hval, hch, hlkroot, hsub, hf0, hdec, hrng,
    htotal, hcba, hdep2, hfin⟩ := make_automaton_spec t t' fuel hw hdep hma
  have hlk : ∀ x a b, lookupChild (childrenOf t x) a = some b →
      lookupChild (childrenOf t' x) a = some b := by
    intro x a b hab
    by_cases hx : x = 0
    · subst hx
      exact hlkroot a b hab
    · rw [hch x hx]
      exact hab
  have hrng2 : ∀ j f, failAt t' j = some f → f < t'.nodes.length := by
    intro j f h
    rw [hlen]
    exact hrng j f h
  have hfuel : ∀ x, x < t.nodes.length → d x < t.nodes.length + 1 := by
    intro x hx
    have := hdep.2.1 x (List.mem_range.mpr hx)
    omega
  cases hq : getNode t s with
  | none =>
    rw [storedValue, hq] at hv
    exact absurd hv (by simp)
  | some q =>
    have hv2 : valueAt t q = some v := by
      rw [storedValue, hq] at hv
      exact hv
    obtain ⟨out, vs, hloop, hmem, hne, hvin⟩ :=
      searchLoop_follow hw hlen hval hlk hdec hrng2 hf0 hfuel s 0 0 q v
        hw.root_pos hq hv2 hs
    rw [Nat.zero_add] at hmem
    exact ⟨out, vs, hloop, hmem, hne, hvin⟩

/-- Witness for C1 on the worked example: hers = [2, 3, 4, 1] stored with
value 12 in tC2; its search in the compiled trie emits an entry at index 3
containing 12. -/
theorem C1_witness :
    WfTrie tC2 ∧ Depths tC2 dC2 ∧ ([2, 3, 4, 1] : List Nat) ≠ [] ∧
    storedValue tC2 [2, 3, 4, 1] = some 12 ∧
    make_automaton tC2 50 = some tC2auto ∧
    ∃ out vs, search tC2auto (tC2.nodes.length + 1) [2, 3, 4, 1] = some out ∧
      (([2, 3, 4, 1] : List Nat).length - 1, vs) ∈ out ∧ vs ≠ [] ∧ (12 : Nat) ∈ vs :=
  ⟨by decide, by decide, by simp, by decide, rfl,
   C1_self_match tC2 tC2auto dC2 [2, 3, 4, 1] 12 50 (by decide) (by decide) (by simp)
     (by decide) rfl⟩

/-- C4: after a successful make_automaton run under the universe
precondition, search is total on every input sequence whose items all lie
in the declared universe: every fail chain walk of the inner loop exits and
the whole search returns a result. -/
theorem C4_search_total (t t' : Trie α β) (d : Nat → Nat) (seq : List α) (fuel : Nat)
    (hw : WfTrie t) (hdep : Depths t d) (hcov : KeysCovered t)
    (hseq : ∀ k ∈ seq, Covered t k)
    (hma : make_automaton t fuel = some t') :
    (search t' (t.nodes.length + 1) seq).isSome := by
  obtain ⟨hlen, hrange, hcontent, hkey, hval, hch, hlkroot, hsub, hf0, hdec, hrng,
    htotal, hcba, hdep2, hfin⟩ := make_automaton_spec t t' fuel hw hdep hma
  obtain ⟨hclosed, hgood, hrootgood⟩ := hfin hcov
  have hrng2 : ∀ j f, failAt t' j = some f → f < t'.nodes.length := by
    intro j f h
    rw [hlen]
    exact hrng j f h
  have hfuel : ∀ x, x < t'.nodes.length → d x < t.nodes.length + 1 := by
    intro x hx
    rw [hlen] at hx
    have := hdep.2.1 x (List.mem_range.mpr hx)
    omega
  have hitems : ∀ k ∈ seq, (lookupChild (childrenOf t' 0) k).isSome ∧
      (∀ f, lookupChild (childrenOf t' 0) k = some f →
        f = 0 ∨ (failAt t' f).isSome) := by
    intro k hk
    obtain ⟨i, hi, hik⟩ := hseq k hk
    constructor
    · rw [← hik]
      exact htotal i (List.mem_range.mp hi)
    · intro f hf
      rw [← hik] at hf
      exact hrootgood i (List.mem_range.mp hi) f hf
  exact searchLoop_total hcba hdec hrng2 hf0 hclosed hgood hfuel seq 0 0 hitems
    (by rw [hlen]; exact hw.root_pos) (Or.inl rfl)

/-- Witness for C4 on the worked example: searching ushers in the compiled
trie returns a result. -/
theorem C4_witness :
    WfTrie tC2 ∧ Depths tC2 dC2 ∧ KeysCovered tC2 ∧
    (∀ k ∈ ushersSeq, Covered tC2 k) ∧ make_automaton tC2 50 = some tC2auto ∧
    (search tC2auto (tC2.nodes.length + 1) ushersSeq).isSome :=
  ⟨by decide, by decide, by decide, by decide, rfl,
   C4_search_total tC2 tC2auto dC2 ushersSeq 50 (by decide) (by decide) (by decide)
     (by decide) rfl⟩

/-- C10: after a successful make_automaton run, match([item i]) is true for
every universe item i, including items the root had no real child for; and
for those items exists([item i]) is still false, because the synthesized
transition leads back to the valueless root. -/
theorem C10_universe_items (t t' : Trie α β) (d : Nat → Nat) (fuel i : Nat)
    (hw : WfTrie t) (hdep : Depths t d)
    (hma : make_automaton t fuel = some t')
    (hi : i < t.items_range) :
    matchSeq t' [t.content i] = true ∧
    (lookupChild (childrenOf t 0) (t.content i) = none →
      trieExists t' [t.content i] = false) := by
  obtain ⟨hlen, hrange, hcontent, hkey, hval, hch, hlkroot, hsub, hf0, hdec, hrng,
    htotal, hcba, hdep2, hfin⟩ := make_automaton_spec t t' fuel hw hdep hma
  have hroot2 : 0 < t'.nodes.length := by
    rw [hlen]
    exact hw.root_pos
  obtain ⟨n0, hn0⟩ := nodeAt_some_of_lt hroot2
  obtain ⟨j, hj⟩ := Option.isSome_iff_exists.mp (htotal i hi)
  have hj2 : lookupChild n0.children (t.content i) = some j := by
    rw [← childrenOf_eq_of_nodeAt hn0]
    exact hj
  have hg : getNode t' [t.content i] = some j := by
    show getNodeFrom t' 0 [t.content i] = some j
    simp only [getNodeFrom, hn0, hj2]
  constructor
  · rw [matchSeq, hg]
    rfl
  · intro hnone
    have hj0 : j = 0 := by
      by_contra hne
      have hmem : (t.content i, j) ∈ childrenOf t' 0 := lookupChild_mem hj
      rcases hsub (t.content i, j) hmem with hold | hz
      · have := lookupChild_of_mem_nodup (hw.nodupKeys 0) hold
        rw [hnone] at this
        exact absurd this (by simp)
      · exact hne hz
    subst hj0
    simp only [trieExists, hg]
    rw [hval 0, hw.value0]
    rfl

/-- Witness for C10 on the worked example: no stored key begins with the
item u = 0, yet match([0]) holds after compilation while exists([0]) stays
false. -/
theorem C10_witness :
    WfTrie tC2 ∧ Depths tC2 dC2 ∧ make_automaton tC2 50 = some tC2auto ∧
    0 < tC2.items_range ∧
    lookupChild (childrenOf tC2 0) (tC2.content 0) = none ∧
    matchSeq tC2auto [tC2.content 0] = true ∧
    trieExists tC2auto [tC2.content 0] = false := by
  have hma : make_automaton tC2 50 = some tC2auto := rfl
  refine ⟨by decide, by decide, hma, by decide, by decide, ?_, ?_⟩
  · exact (C10_universe_items tC2 tC2auto dC2 50 0 (by decide) (by decide) hma
      (by decide)).1
  · exact (C10_universe_items tC2 tC2auto dC2 50 0 (by decide) (by decide) hma
      (by decide)).2 (by decide)

/-- Counterexample for C3 as stated: in the worked trie all fail links are
NIL before compilation, and after a successful make_automaton run the fail
link of the root is still NIL, against every node including the root having
it set. -/
theorem C3_counterexample :
    (∀ j ∈ List.range tC2.nodes.length, failAt tC2 j = none) ∧
    make_automaton tC2 50 = some tC2auto ∧
    failAt tC2auto 0 = none :=
  ⟨by decide, rfl, by decide⟩

/-- C3 (amended): before make_automaton every fail reference is unset;
after a successful make_automaton run under the universe precondition (with
edge labels matching the keyitems, as add maintains), every node except the
root has its fail reference set, while the fail reference of the root
remains unset. -/
theorem C3_fail_links (t t' : Trie α β) (d : Nat → Nat) (fuel : Nat)
    (hw : WfTrie t) (hdep : Depths t d) (hcov : KeysCovered t) (hkl : KeyLabels t)
    (hma : make_automaton t fuel = some t') :
    (∀ j ∈ List.range t.nodes.length, failAt t j = none) ∧
    failAt t' 0 = none ∧
    (∀ j ∈ List.range t.nodes.length, j ≠ 0 → (failAt t' j).isSome) := by
  obtain ⟨hlen, hrange, hcontent, hkey, hval, hch, hlkroot, hsub, hf0, hdec, hrng,
    htotal, hcba, hdep2, hfin⟩ := make_automaton_spec t t' fuel hw hdep hma
  obtain ⟨hclosed, hgood, hrootgood⟩ := hfin hcov
  have main : ∀ j, j < t.nodes.length → j ≠ 0 → (failAt t' j).isSome := by
    intro j
    induction j using Nat.strong_induction_on with
    | _ j ih =>
      intro hj hj0
      obtain ⟨i, e, he, hej⟩ := hw.parent j hj hj0
      obtain ⟨a, b⟩ := e
      have hbj : j = b := hej.symm
      subst hbj
      have hilen : i < t.nodes.length := by
        by_contra hle
        rw [childrenOf_nil_of_le (not_lt.mp hle)] at he
        simp at he
      have hilt := hw.cb i (a, j) he
      by_cases hi0 : i = 0
      · subst hi0
        have hkeyj : keyAt t j = some a :=
          hkl 0 (List.mem_range.mpr hw.root_pos) (a, j) he
        obtain ⟨i2, hi2, hk2⟩ := hcov j (List.mem_range.mpr hj) hj0
        have hak : t.content i2 = a := by
          rw [hkeyj] at hk2
          injection hk2 with h
          exact h.symm
        have hlkt : lookupChild (childrenOf t 0) a = some j :=
          lookupChild_of_mem_nodup (hw.nodupKeys 0) he
        have hlkt2 : lookupChild (childrenOf t' 0) (t.content i2) = some j := by
          rw [hak]
          exact hlkroot a j hlkt
        rcases hrootgood i2 (List.mem_range.mp hi2) j hlkt2 with hz | hset
        · exact absurd hz hj0
        · exact hset
      · have hiset : (failAt t' i).isSome := ih i hilt.1 hilen hi0
        refine hclosed i hiset (a, j) ?_
        rw [hch i hi0]
        exact he
  exact ⟨fun j _ => hw.fails j, hf0,
    fun j hj hj0 => main j (List.mem_range.mp hj) hj0⟩

/-- Witness for C3 (amended) on the worked example. -/
theorem C3_witness :
    WfTrie tC2 ∧ Depths tC2 dC2 ∧ KeysCovered tC2 ∧ KeyLabels tC2 ∧
    make_automaton tC2 50 = some tC2auto ∧
    ((∀ j ∈ List.range tC2.nodes.length, failAt tC2 j = none) ∧
      failAt tC2auto 0 = none ∧
      (∀ j ∈ List.range tC2.nodes.length, j ≠ 0 → (failAt tC2auto j).isSome)) :=
  ⟨by decide, by decide, by decide, by decide, rfl,
   C3_fail_links tC2 tC2auto dC2 50 (by decide) (by decide) (by decide) (by decide) rfl⟩

end Aho

